import Mathlib

/-!
# The reduce task of the MapReduce lab (`src/mapreduce/common_reduce.go`)

A shallow embedding of `StringSlice` and `doReduce`, followed by the properties of the
reduce task that are established about them.

Modelling conventions.

* A Go `string` is a finite sequence of bytes; the built-in `<` on strings compares them
  byte by byte.
* The file system is explicit state. `os.Open` and `os.OpenFile` may fail; `doReduce`
  panics in that case, which is modelled by the `failure` field of the result.
* `encoding/json` is library code. It is taken as a parameter (`Codec`): an encoder for
  one record and a one-record decoder that reports an error or returns the record along
  with the rest of the stream. The only assumption is that a successful `Decode`
  consumes at least one byte.
* `reduceName` is defined elsewhere in the package and is a parameter as well.
* The result of `doReduce` records the final file system and the observable events of the
  run: the shard files opened, the calls made to `reduceF` and the records handed to the
  encoder.
-/

namespace MapReduce

/-! ## Strings -/

/-- One byte of a string or of a file. -/
abbrev Byte := Fin 256

/-- A Go string: an immutable sequence of bytes. -/
abbrev GoString := List Byte

/-- The built-in comparison `s < t` of two Go strings, which is lexical and byte-wise:
the first differing byte decides, and a proper initial segment is smaller. -/
def strLess : GoString → GoString → Bool
  | [], [] => false
  | [], _ :: _ => true
  | _ :: _, [] => false
  | a :: s, b :: t => if a < b then true else if b < a then false else strLess s t

/-! ## `StringSlice` and `sort.Sort` -/

/-- The type `StringSlice []string`. -/
abbrev StringSlice := List GoString

/-- The method `Len`: `return len(slice)`. -/
def StringSlice.Len (slice : StringSlice) : Nat :=
  slice.length

/-- The method `Less`: `return slice[i] < slice[j]`. An index out of range, on which Go
panics, reads as the empty string; the sort never produces one. -/
def StringSlice.Less (slice : StringSlice) (i j : Nat) : Bool :=
  strLess (slice.getD i []) (slice.getD j [])

/-- The method `Swap`: `slice[i], slice[j] = slice[j], slice[i]`. Both right-hand sides
are read before either assignment. -/
def StringSlice.Swap (slice : StringSlice) (i j : Nat) : StringSlice :=
  (slice.set i (slice.getD j [])).set j (slice.getD i [])

/-- The inner loop of the insertion sort of package `sort`:
`for j := i; j > 0 && data.Less(j, j-1); j-- { data.Swap(j, j-1) }`. -/
def insertionInner (data : StringSlice) : Nat → StringSlice
  | 0 => data
  | j + 1 =>
    if StringSlice.Less data (j + 1) j then insertionInner (StringSlice.Swap data (j + 1) j) j
    else data

/-- The outer loop `for i := a + 1; i < b; i++`, with `todo` iterations left and the
next one at index `i`. -/
def insertionOuter : Nat → Nat → StringSlice → StringSlice
  | 0, _, data => data
  | todo + 1, i, data => insertionOuter todo (i + 1) (insertionInner data i)

/-- A model of `sort.Sort(data)`. The library promises a rearrangement of `data` that is
ascending for `Less`, reached through `Len`, `Less` and `Swap` only; the model is the
insertion sort of the library run over the whole slice. For the `Less` of `StringSlice`
the promise leaves one possible result (`sortSort_unique`), so the choice of the sorting
algorithm does not matter. -/
def sortSort (data : StringSlice) : StringSlice :=
  insertionOuter (StringSlice.Len data - 1) 1 data

/-! ## Records and their serialisation -/

/-- The struct `KeyValue`. -/
structure KeyValue where
  Key : GoString
  Value : GoString
deriving DecidableEq, Repr

/-- The part of `encoding/json` that `doReduce` uses. `encode kv` is what
`enc.Encode(kv)` writes; `decode s` is one call `dec.Decode(&kv)` on the unread
stream `s`: an error (`none`), or the record and the stream left to read. -/
structure Codec where
  encode : KeyValue → List Byte
  decode : List Byte → Option (KeyValue × List Byte)
  decode_consumes : ∀ s kv rest, decode s = some (kv, rest) → rest.length < s.length

/-! ## The map `keyValuesMap` -/

/-- A Go `map[string][]string`, as the list of its entries. -/
structure GoMap where
  entries : List (GoString × List GoString)
deriving DecidableEq, Repr

/-- The value of `make(map[string][]string)`. -/
def GoMap.empty : GoMap :=
  ⟨[]⟩

/-- Lookup in a list of entries. -/
def lookupEntries (k : GoString) : List (GoString × List GoString) → Option (List GoString)
  | [] => none
  | (k', v) :: t => if k' = k then some v else lookupEntries k t

/-- Assignment in a list of entries: the entry of `k` is replaced, or added. -/
def assignEntries (k : GoString) (v : List GoString) :
    List (GoString × List GoString) → List (GoString × List GoString)
  | [] => [(k, v)]
  | (k', v') :: t => if k' = k then (k, v) :: t else (k', v') :: assignEntries k v t

/-- The two-result index expression `v, ok := m[k]`; `none` stands for `ok == false`. -/
def GoMap.lookup (m : GoMap) (k : GoString) : Option (List GoString) :=
  lookupEntries k m.entries

/-- The index expression `m[k]`: the zero value, a nil slice, when `k` is absent. -/
def GoMap.index (m : GoMap) (k : GoString) : List GoString :=
  (m.lookup k).getD []

/-- The assignment `m[k] = v`. -/
def GoMap.assign (m : GoMap) (k : GoString) (v : List GoString) : GoMap :=
  ⟨assignEntries k v m.entries⟩

/-- The two locals `keyValuesMap` and `keys` of `doReduce`. -/
structure Grouping where
  keyValuesMap : GoMap
  keys : List GoString
deriving DecidableEq, Repr

/-- The locals as initialised on lines 68 and 69. -/
def Grouping.init : Grouping :=
  ⟨GoMap.empty, []⟩

/-- The body of the decode loop after a successful `Decode` (lines 83 to 87). -/
def Grouping.add (g : Grouping) (kv : KeyValue) : Grouping :=
  let g1 : Grouping :=
    match g.keyValuesMap.lookup kv.Key with
    | none => ⟨g.keyValuesMap.assign kv.Key [], g.keys ++ [kv.Key]⟩
    | some _ => g
  ⟨g1.keyValuesMap.assign kv.Key (g1.keyValuesMap.index kv.Key ++ [kv.Value]), g1.keys⟩

/-- The decode loop of one shard (lines 78 to 88): decode until `Decode` reports an
error. Every successful `Decode` consumes a byte, so `fuel` greater than the length of
the stream is never used up. -/
def decodeLoop (c : Codec) : Nat → List Byte → Grouping → Grouping
  | 0, _, g => g
  | fuel + 1, s, g =>
    match c.decode s with
    | none => g
    | some (kv, rest) => decodeLoop c fuel rest (g.add kv)

/-! ## The file system -/

/-- The file system: the content of every path that names a file, and whether the two
ways in which `doReduce` opens a path succeed on it. -/
structure FS where
  files : GoString → Option (List Byte)
  mayRead : GoString → Bool
  mayWrite : GoString → Bool

/-- The call `os.Open(name)`: the content that the returned file reads, or `none` on
error (no such file, or no permission). -/
def FS.osOpen (fs : FS) (name : GoString) : Option (List Byte) :=
  if fs.mayRead name then fs.files name else none

/-- The call `os.OpenFile(name, os.O_CREATE|os.O_WRONLY, 0755)`: `none` on error.
Otherwise a missing file is created empty and an existing one keeps its content, as
the flags do not include `os.O_TRUNC`. The file is positioned at offset 0. -/
def FS.osOpenFile (fs : FS) (name : GoString) : Option FS :=
  if fs.mayWrite name then
    some ⟨fun p => if p = name then some ((fs.files name).getD []) else fs.files p,
      fs.mayRead, fs.mayWrite⟩
  else none

/-- Content of a file after `bytes` are written at offset `off`: the bytes in that range
are replaced, the file grows when the range passes its end, and a gap before `off`
reads as zero bytes. -/
def overwrite (old : List Byte) (off : Nat) (bytes : List Byte) : List Byte :=
  old.take off ++ List.replicate (off - old.length) 0 ++ bytes ++ old.drop (off + bytes.length)

/-- A write of `bytes` at offset `off` through a file opened on `name`. -/
def FS.write (fs : FS) (name : GoString) (off : Nat) (bytes : List Byte) : FS :=
  ⟨fun p => if p = name then some (overwrite ((fs.files name).getD []) off bytes) else fs.files p,
    fs.mayRead, fs.mayWrite⟩

/-! ## `doReduce` -/

/-- A value that a panic of `reduceF` carries. -/
abbrev PanicValue := GoString

/-- The caller-supplied reduce function. A Go function either returns or panics. -/
abbrev ReduceF := GoString → List GoString → Except PanicValue GoString

/-- The ways in which a run of `doReduce` ends in a panic. -/
inductive Failure where
  | openShard (name : GoString)
  | openOutput (name : GoString)
  | inReduceF (value : PanicValue)
deriving DecidableEq, Repr

/-- What the loop over the shards leaves behind. -/
structure ReadState where
  locals : Grouping
  opened : List GoString
  failure : Option Failure

/-- The loop `for m := 0; m < nMap; m++` (lines 70 to 91), with `todo` iterations left
and the next one at index `m`; `name m` is `reduceName(jobName, m, reduceTask)`. -/
def shardLoop (c : Codec) (fs : FS) (name : Nat → GoString) :
    Nat → Nat → Grouping → List GoString → ReadState
  | 0, _, g, op => ⟨g, op, none⟩
  | todo + 1, m, g, op =>
    match fs.osOpen (name m) with
    | none => ⟨g, op, some (Failure.openShard (name m))⟩
    | some s =>
      shardLoop c fs name todo (m + 1) (decodeLoop c (s.length + 1) s g) (op ++ [name m])

/-- The outcome of a run of `doReduce`. -/
structure Run where
  fs : FS
  opened : List GoString
  calls : List (GoString × List GoString)
  written : List KeyValue
  failure : Option Failure

/-- The loop `for _, key := range keys` (lines 102 to 104). `off` is the offset of the
output file. A panic of `reduceF` ends the run; the encoder writes each record to the
file as soon as it is encoded. -/
def writeLoop (c : Codec) (reduceF : ReduceF) (kvm : GoMap) (outFile : GoString) :
    List GoString → Nat → Run → Run
  | [], _, r => r
  | key :: ks, off, r =>
    match reduceF key (kvm.index key) with
    | Except.error e =>
      ⟨r.fs, r.opened, r.calls ++ [(key, kvm.index key)], r.written, some (Failure.inReduceF e)⟩
    | Except.ok v =>
      writeLoop c reduceF kvm outFile ks (off + (c.encode ⟨key, v⟩).length)
        ⟨r.fs.write outFile off (c.encode ⟨key, v⟩), r.opened,
          r.calls ++ [(key, kvm.index key)], r.written ++ [⟨key, v⟩], none⟩

/-- The function `doReduce`. -/
def doReduce (c : Codec) (reduceName : GoString → Int → Int → GoString) (fs : FS)
    (jobName : GoString) (reduceTask : Int) (outFile : GoString) (nMap : Int)
    (reduceF : ReduceF) : Run :=
  let rd := shardLoop c fs (fun m => reduceName jobName (m : Int) reduceTask)
    nMap.toNat 0 Grouping.init []
  match rd.failure with
  | some e => ⟨fs, rd.opened, [], [], some e⟩
  | none =>
    let keys := sortSort rd.locals.keys
    match fs.osOpenFile outFile with
    | none => ⟨fs, rd.opened, [], [], some (Failure.openOutput outFile)⟩
    | some fs1 =>
      writeLoop c reduceF rd.locals.keyValuesMap outFile keys 0 ⟨fs1, rd.opened, [], [], none⟩

/-! ## Notions used to state the properties -/

/-- The relation `a ≥ b` on Go strings, that is, `!(a < b)`. -/
def strGe (a b : GoString) : Prop :=
  strLess a b = false

instance strGe_decidable : DecidableRel strGe :=
  fun a b => inferInstanceAs (Decidable (strLess a b = false))

/-- The values recorded under the key `k` in a sequence of records, in their order. -/
def valuesOf (k : GoString) (rs : List KeyValue) : List GoString :=
  (rs.filter (fun kv => decide (kv.Key = k))).map KeyValue.Value

/-- The keys of a sequence of records, in their order. -/
def keysOf (rs : List KeyValue) : List GoString :=
  rs.map KeyValue.Key

/-- The number of occurrences of the key `k` in a list of keys. -/
def occurrences (k : GoString) (l : List GoString) : Nat :=
  (l.filter (fun x => decide (x = k))).length

/-- The records that successive calls of `Decode` return on the stream `s`, up to the
first call that reports an error; at most `fuel` calls are made. -/
def recordsAux (c : Codec) : Nat → List Byte → List KeyValue
  | 0, _ => []
  | fuel + 1, s =>
    match c.decode s with
    | none => []
    | some (kv, rest) => kv :: recordsAux c fuel rest

/-- The records decoded from the stream `s` up to the first decode error. -/
def Codec.records (c : Codec) (s : List Byte) : List KeyValue :=
  recordsAux c (s.length + 1) s

/-- Reading relation `c.Reads s rs rest`: successive calls of `Decode` on the stream `s`
return the records `rs` one after the other, and the next call, on the unread part
`rest`, reports an error. -/
def Codec.Reads (c : Codec) : List Byte → List KeyValue → List Byte → Prop
  | s, [], rest => s = rest ∧ c.decode s = none
  | s, kv :: rs, rest => ∃ mid, c.decode s = some (kv, mid) ∧ Codec.Reads c mid rs rest

/-- The records that a run reads from shard `m`: those decoded from the file `name m` up
to the first decode error. -/
def shardRecords (c : Codec) (fs : FS) (name : Nat → GoString) (m : Nat) : List KeyValue :=
  match fs.osOpen (name m) with
  | some s => c.records s
  | none => []

/-- The records of the shards `0, ..., M - 1`, in shard order and then in their order
within the shard. -/
def inputRecords (c : Codec) (fs : FS) (name : Nat → GoString) (M : Nat) : List KeyValue :=
  (List.range M).flatMap (shardRecords c fs name)

/-- The bytes that the encoder writes for a sequence of records. -/
def encodeAll (c : Codec) (rs : List KeyValue) : List Byte :=
  rs.flatMap c.encode

/-- The calls that the loop over the keys `ks` makes to `reduceF`: one per key, up to and
including the first key on which `reduceF` panics. -/
def reduceCalls (reduceF : ReduceF) (kvm : GoMap) : List GoString → List (GoString × List GoString)
  | [] => []
  | k :: ks =>
    (k, kvm.index k) ::
      match reduceF k (kvm.index k) with
      | Except.error _ => []
      | Except.ok _ => reduceCalls reduceF kvm ks

/-- The records that the loop over the keys `ks` hands to the encoder: one per key, up to
the first key on which `reduceF` panics. -/
def reducedRecords (reduceF : ReduceF) (kvm : GoMap) : List GoString → List KeyValue
  | [] => []
  | k :: ks =>
    match reduceF k (kvm.index k) with
    | Except.error _ => []
    | Except.ok v => ⟨k, v⟩ :: reducedRecords reduceF kvm ks

/-- The panic, if any, in which the loop over the keys `ks` ends. -/
def reduceFailure (reduceF : ReduceF) (kvm : GoMap) : List GoString → Option Failure
  | [] => none
  | k :: ks =>
    match reduceF k (kvm.index k) with
    | Except.error e => some (Failure.inReduceF e)
    | Except.ok _ => reduceFailure reduceF kvm ks

/-- A reduce function that always returns. -/
def returning (f : GoString → List GoString → GoString) : ReduceF :=
  fun k vs => Except.ok (f k vs)

/-- The name of the shard file of map task `m`: `reduceName(jobName, m, reduceTask)`. -/
def shardName (reduceName : GoString → Int → Int → GoString) (jobName : GoString)
    (reduceTask : Int) (m : Nat) : GoString :=
  reduceName jobName (m : Int) reduceTask

/-- The locals `keyValuesMap` and `keys` once the records `rs` have gone through the body
of the decode loop, starting from the initial locals. -/
def grouped (rs : List KeyValue) : Grouping :=
  rs.foldl Grouping.add Grouping.init

/-! ## A concrete instance, for the examples -/

/-- Encoder of a length-framed serialisation: the length of the key, the length of the
value, the key, the value. -/
def frameEncode (kv : KeyValue) : List Byte :=
  (Fin.ofNat kv.Key.length : Byte) :: (Fin.ofNat kv.Value.length : Byte) :: (kv.Key ++ kv.Value)

/-- Decoder of the length-framed serialisation; a truncated record is an error. -/
def frameDecode : List Byte → Option (KeyValue × List Byte)
  | a :: b :: t =>
    if a.val + b.val ≤ t.length then
      some (⟨t.take a.val, (t.drop a.val).take b.val⟩, t.drop (a.val + b.val))
    else none
  | _ => none

/-- The length-framed serialisation as a codec. -/
def frameCodec : Codec where
  encode := frameEncode
  decode := frameDecode
  decode_consumes := by
    intro s kv rest h
    match s, h with
    | a :: b :: t, h =>
      simp only [frameDecode] at h
      split at h
      · simp only [Option.some.injEq, Prod.mk.injEq] at h
        rw [← h.2]
        simp only [List.length_drop, List.length_cons]
        omega
      · exact Option.noConfusion h

/-- A naming of shard files for the examples: the job name, then one byte for the map
task and one for the reduce task. -/
def exampleName : GoString → Int → Int → GoString :=
  fun job m r => job ++ [(Fin.ofNat m.toNat : Byte), (Fin.ofNat r.toNat : Byte)]

/-- The reduce function that joins the values with commas. -/
def joinComma : GoString → List GoString → GoString :=
  fun _ vs => List.intercalate [44] vs

/-- A file system with the two shards of job `j` for reduce task 0: shard 0 holds the
records (a, 1), (b, 2) and shard 1 holds (a, 3), (c, 4). Every path may be opened. -/
def exampleFS : FS where
  files := fun p =>
    if p = [106, 0, 0] then some [1, 1, 97, 49, 1, 1, 98, 50]
    else if p = [106, 1, 0] then some [1, 1, 97, 51, 1, 1, 99, 52]
    else none
  mayRead := fun _ => true
  mayWrite := fun _ => true

/-- The records of the two shards of `exampleFS`. -/
def exampleRecs : Nat → List KeyValue :=
  fun m => if m = 0 then [⟨[97], [49]⟩, ⟨[98], [50]⟩] else [⟨[97], [51]⟩, ⟨[99], [52]⟩]

/-- The file system `exampleFS` in which the output path `o` already holds the four
records (a, "1,3"), (b, "2"), (c, "4"), (z, "9") of an earlier run. -/
def staleFS : FS where
  files := fun p =>
    if p = [111] then some [1, 3, 97, 49, 44, 51, 1, 1, 98, 50, 1, 1, 99, 52, 1, 1, 122, 57]
    else exampleFS.files p
  mayRead := fun _ => true
  mayWrite := fun _ => true

/-- The file system `exampleFS` without the file of shard 1. -/
def missingFS : FS where
  files := fun p => if p = [106, 0, 0] then some [1, 1, 97, 49, 1, 1, 98, 50] else none
  mayRead := fun _ => true
  mayWrite := fun _ => true

/-- The file system `exampleFS` on which no path can be opened for writing. -/
def readOnlyFS : FS where
  files := exampleFS.files
  mayRead := fun _ => true
  mayWrite := fun _ => false

/-- A file system in which shard 0 holds the record (a, 1) followed by three bytes that
do not decode, and shard 1 holds (a, 3), (c, 4). -/
def garbledFS : FS where
  files := fun p =>
    if p = [106, 0, 0] then some [1, 1, 97, 49, 9, 9, 9]
    else if p = [106, 1, 0] then some [1, 1, 97, 51, 1, 1, 99, 52]
    else none
  mayRead := fun _ => true
  mayWrite := fun _ => true

/-- The records that are read from the two shards of `garbledFS`. -/
def garbledRecs : Nat → List KeyValue :=
  fun m => if m = 0 then [⟨[97], [49]⟩] else [⟨[97], [51]⟩, ⟨[99], [52]⟩]

/-- A reduce function that panics with the value `!` on the key `b` and joins the values
with commas on every other key. -/
def failOnB : ReduceF :=
  fun k vs => if k = [98] then Except.error [33] else Except.ok (joinComma k vs)

/-- The distinct keys of a list of keys in first-seen order: each key stands at the place
of its first occurrence and its later occurrences are dropped. -/
def firstSeen : List GoString → List GoString
  | [] => []
  | k :: ks => k :: (firstSeen ks).filter (fun x => decide (x ≠ k))

/-- The file system `exampleFS` with the contents of the two shards exchanged. -/
def swappedFS : FS where
  files := fun p =>
    if p = [106, 0, 0] then some [1, 1, 97, 51, 1, 1, 99, 52]
    else if p = [106, 1, 0] then some [1, 1, 97, 49, 1, 1, 98, 50]
    else none
  mayRead := fun _ => true
  mayWrite := fun _ => true

/-- The reduce function that returns the number of values, as one byte. -/
def countValues : GoString → List GoString → GoString :=
  fun _ vs => [(Fin.ofNat vs.length : Byte)]

/-- The sum of the lengths of the value lists of a map. -/
def totalValues (m : GoMap) : Nat :=
  (m.entries.map (fun e => e.2.length)).sum

/-! ## The order of Go strings -/

theorem strLess_irrefl (a : GoString) : strLess a a = false := by
  induction a with
  | nil => rfl
  | cons x s ih => simp [strLess, ih]

theorem strLess_asymm : ∀ a b : GoString, strLess a b = true → strLess b a = false
  | [], [], h => by simp [strLess] at h
  | [], _ :: _, _ => by simp [strLess]
  | _ :: _, [], h => by simp [strLess] at h
  | x :: s, y :: t, h => by
    rcases lt_trichotomy x y with hxy | hxy | hxy
    · simp [strLess, hxy, not_lt_of_lt hxy]
    · subst hxy
      simp only [strLess, lt_self_iff_false, if_false] at h ⊢
      exact strLess_asymm s t h
    · simp [strLess, hxy, not_lt_of_lt hxy] at h

theorem strLess_connex : ∀ a b : GoString, strLess a b = false → strLess b a = false → a = b
  | [], [], _, _ => rfl
  | [], _ :: _, h, _ => by simp [strLess] at h
  | _ :: _, [], _, h => by simp [strLess] at h
  | x :: s, y :: t, h1, h2 => by
    rcases lt_trichotomy x y with hxy | hxy | hxy
    · simp [strLess, hxy] at h1
    · subst hxy
      simp only [strLess, lt_self_iff_false, if_false] at h1 h2
      rw [strLess_connex s t h1 h2]
    · simp [strLess, hxy] at h2

theorem strLess_trans : ∀ a b c : GoString,
    strLess a b = true → strLess b c = true → strLess a c = true
  | [], [], _, h, _ => by simp [strLess] at h
  | [], _ :: _, [], _, h => by simp [strLess] at h
  | [], _ :: _, _ :: _, _, _ => by simp [strLess]
  | _ :: _, [], _, h, _ => by simp [strLess] at h
  | _ :: _, _ :: _, [], _, h => by simp [strLess] at h
  | x :: s, y :: t, z :: u, h1, h2 => by
    rcases lt_trichotomy x y with hxy | hxy | hxy
    · rcases lt_trichotomy y z with hyz | hyz | hyz
      · simp [strLess, lt_trans hxy hyz]
      · subst hyz
        simp [strLess, hxy]
      · simp [strLess, hyz, not_lt_of_lt hyz] at h2
    · subst hxy
      rcases lt_trichotomy x z with hxz | hxz | hxz
      · simp [strLess, hxz]
      · subst hxz
        simp only [strLess, lt_self_iff_false, if_false] at h1 h2 ⊢
        exact strLess_trans s t u h1 h2
      · simp [strLess, hxz, not_lt_of_lt hxz] at h2
    · simp [strLess, hxy, not_lt_of_lt hxy] at h1

/-- The comparison `strLess` is the lexicographic order of the byte sequences. -/
theorem strLess_iff_lex : ∀ a b : GoString,
    strLess a b = true ↔ List.Lex (fun x y : Byte => x < y) a b
  | [], [] => by simp [strLess]
  | [], _ :: _ => by simp [strLess, List.Lex.nil]
  | _ :: _, [] => by simp [strLess]
  | x :: s, y :: t => by
    rcases lt_trichotomy x y with hxy | hxy | hxy
    · simp only [strLess, hxy, if_true, true_iff]
      exact List.Lex.rel hxy
    · subst hxy
      simp only [strLess, lt_self_iff_false, if_false]
      rw [strLess_iff_lex s t]
      constructor
      · exact List.Lex.cons
      · intro h
        cases h with
        | cons h => exact h
        | rel h => exact absurd h (lt_irrefl _)
    · simp only [strLess, not_lt_of_lt hxy, hxy, if_true, if_false, Bool.false_eq_true,
        false_iff]
      intro h
      cases h with
      | cons h => exact lt_irrefl _ hxy
      | rel h => exact lt_asymm h hxy

theorem strGe_total (a b : GoString) : strGe a b ∨ strGe b a := by
  unfold strGe
  cases h : strLess a b
  · exact Or.inl rfl
  · exact Or.inr (strLess_asymm a b h)

theorem strGe_trans (a b c : GoString) (hab : strGe a b) (hbc : strGe b c) : strGe a c := by
  unfold strGe at *
  cases hac : strLess a c
  · rfl
  · exfalso
    cases hba : strLess b a
    · have := strLess_connex a b hab hba
      subst this
      rw [hac] at hbc
      exact Bool.noConfusion hbc
    · rw [strLess_trans b a c hba hac] at hbc
      exact Bool.noConfusion hbc

/-! ## `sort.Sort` on a `StringSlice` -/

theorem less_adjacent (p : List GoString) (x y : GoString) (c : List GoString) :
    StringSlice.Less (p ++ y :: x :: c) (p.length + 1) p.length = strLess x y := by
  induction p with
  | nil => simp [StringSlice.Less]
  | cons z p ih =>
    simp only [StringSlice.Less] at ih ⊢
    simpa using ih

theorem swap_adjacent (p : List GoString) (x y : GoString) (c : List GoString) :
    StringSlice.Swap (p ++ y :: x :: c) (p.length + 1) p.length = p ++ x :: y :: c := by
  induction p with
  | nil => simp [StringSlice.Swap]
  | cons z p ih =>
    simp only [StringSlice.Swap] at ih ⊢
    simpa using ih

/-- The inner loop moves the element at index `i` down into the ascending run before it:
on the reversed run this is an ordered insertion. -/
theorem insertionInner_eq (p : List GoString) (x : GoString) (c : List GoString) :
    insertionInner (p.reverse ++ x :: c) p.length
      = (List.orderedInsert strGe x p).reverse ++ c := by
  induction p generalizing c with
  | nil => simp [insertionInner]
  | cons y p ih =>
    have hl : (y :: p).length = p.reverse.length + 1 := by simp
    have hd : (y :: p).reverse ++ x :: c = p.reverse ++ y :: x :: c := by simp
    rw [hd, hl, insertionInner, less_adjacent, swap_adjacent]
    by_cases h : strLess x y = true
    · have hn : ¬ strGe x y := by simp [strGe, h]
      rw [if_pos h, List.length_reverse, ih, List.orderedInsert, if_neg hn]
      simp
    · have hn : strGe x y := by simpa [strGe] using h
      rw [if_neg h, List.orderedInsert, if_pos hn]
      simp

theorem insertionOuter_eq (l p : List GoString) :
    insertionOuter l.length p.length (p.reverse ++ l)
      = (l.foldl (fun acc x => List.orderedInsert strGe x acc) p).reverse := by
  induction l generalizing p with
  | nil => simp [insertionOuter]
  | cons x l ih =>
    rw [List.length_cons, insertionOuter, insertionInner_eq]
    have := ih (List.orderedInsert strGe x p)
    rw [List.orderedInsert_length] at this
    rw [List.foldl_cons, ← this]

theorem sortSort_cons (x : GoString) (l : List GoString) :
    sortSort (x :: l)
      = (l.foldl (fun acc y => List.orderedInsert strGe y acc) [x]).reverse := by
  have := insertionOuter_eq l [x]
  simpa [sortSort, StringSlice.Len] using this

theorem foldl_orderedInsert_perm (l p : List GoString) :
    (l.foldl (fun acc x => List.orderedInsert strGe x acc) p).Perm (l ++ p) := by
  induction l generalizing p with
  | nil => simp
  | cons x l ih =>
    rw [List.foldl_cons]
    refine (ih _).trans ?_
    refine ((List.perm_orderedInsert strGe x p).append_left l).trans ?_
    simp

theorem foldl_orderedInsert_sorted (l p : List GoString) (hp : List.Sorted strGe p) :
    List.Sorted strGe (l.foldl (fun acc x => List.orderedInsert strGe x acc) p) := by
  haveI : IsTotal GoString strGe := ⟨strGe_total⟩
  haveI : IsTrans GoString strGe := ⟨strGe_trans⟩
  induction l generalizing p with
  | nil => simpa using hp
  | cons x l ih =>
    rw [List.foldl_cons]
    exact ih _ (List.Sorted.orderedInsert x p hp)

/-- The result of `sort.Sort` is a rearrangement of the slice. -/
theorem sortSort_perm (l : List GoString) : (sortSort l).Perm l := by
  cases l with
  | nil => simp [sortSort, insertionOuter, StringSlice.Len]
  | cons x l =>
    rw [sortSort_cons]
    refine (List.reverse_perm _).trans ((foldl_orderedInsert_perm l [x]).trans ?_)
    simp

/-- The result of `sort.Sort` is ascending: no element is smaller than an earlier one. -/
theorem sortSort_sorted (l : List GoString) :
    (sortSort l).Pairwise (fun a b => strLess b a = false) := by
  cases l with
  | nil => simp [sortSort, insertionOuter, StringSlice.Len]
  | cons x l =>
    rw [sortSort_cons, List.pairwise_reverse]
    have := foldl_orderedInsert_sorted l [x] (List.sorted_singleton x)
    simpa [List.Sorted, strGe] using this

/-- The contract of `sort.Sort` determines its result: every ascending rearrangement of a
slice is the one that the model computes. -/
theorem sortSort_unique (l l' : List GoString) (hp : l'.Perm l)
    (hs : l'.Pairwise (fun a b => strLess b a = false)) : l' = sortSort l := by
  haveI : IsAntisymm GoString (fun a b => strLess b a = false) :=
    ⟨fun a b hab hba => strLess_connex a b hba hab⟩
  exact List.eq_of_perm_of_sorted (hp.trans (sortSort_perm l).symm) hs (sortSort_sorted l)

/-- On a slice without repetition the result of `sort.Sort` is strictly ascending. -/
theorem sortSort_strict (l : List GoString) (hl : l.Nodup) :
    (sortSort l).Pairwise (fun a b => strLess a b = true) := by
  have hs := sortSort_sorted l
  have hn : (sortSort l).Nodup := (sortSort_perm l).nodup_iff.mpr hl
  have := hs.and hn
  refine this.imp ?_
  intro a b hab
  cases h : strLess a b
  · exact absurd (strLess_connex a b h hab.1) hab.2
  · rfl

/-! ## Decoding a shard -/

theorem decodeLoop_eq (c : Codec) (fuel : Nat) (s : List Byte) (g : Grouping) :
    decodeLoop c fuel s g = (recordsAux c fuel s).foldl Grouping.add g := by
  induction fuel generalizing s g with
  | zero => simp [decodeLoop, recordsAux]
  | succ n ih =>
    rw [decodeLoop, recordsAux]
    cases h : c.decode s with
    | none => simp
    | some q =>
      obtain ⟨kv, rest⟩ := q
      simp [ih]

/-- Fuel above the length of the stream is enough: the records are those of the reading
relation, whatever the fuel. -/
theorem recordsAux_of_reads (c : Codec) (rs : List KeyValue) (s rest : List Byte) (fuel : Nat)
    (h : c.Reads s rs rest) (hf : s.length < fuel) : recordsAux c fuel s = rs := by
  induction rs generalizing s fuel with
  | nil =>
    obtain ⟨_, hd⟩ := h
    cases fuel with
    | zero => rfl
    | succ n => simp [recordsAux, hd]
  | cons kv rs ih =>
    obtain ⟨mid, hd, hr⟩ := h
    cases fuel with
    | zero => exact absurd hf (Nat.not_lt_zero _)
    | succ n =>
      have hlt := c.decode_consumes s kv mid hd
      simp only [recordsAux, hd]
      rw [ih mid n hr (by omega)]

theorem reads_exists (c : Codec) (n : Nat) :
    ∀ s : List Byte, s.length < n → ∃ rs rest, c.Reads s rs rest := by
  induction n with
  | zero => intro s hs; exact absurd hs (Nat.not_lt_zero _)
  | succ n ih =>
    intro s hs
    cases hd : c.decode s with
    | none => exact ⟨[], s, rfl, hd⟩
    | some q =>
      obtain ⟨kv, mid⟩ := q
      have hlt := c.decode_consumes s kv mid hd
      obtain ⟨rs, rest, hr⟩ := ih mid (by omega)
      exact ⟨kv :: rs, rest, mid, hd, hr⟩

/-- Every stream is read to its first decode error, and `records` are the records read. -/
theorem reads_records (c : Codec) (s : List Byte) : ∃ rest, c.Reads s (c.records s) rest := by
  obtain ⟨rs, rest, hr⟩ := reads_exists c (s.length + 1) s (Nat.lt_succ_self _)
  refine ⟨rest, ?_⟩
  rw [Codec.records, recordsAux_of_reads c rs s rest _ hr (Nat.lt_succ_self _)]
  exact hr

theorem records_of_reads (c : Codec) (rs : List KeyValue) (s rest : List Byte)
    (h : c.Reads s rs rest) : c.records s = rs :=
  recordsAux_of_reads c rs s rest _ h (Nat.lt_succ_self _)

/-! ## Grouping -/

theorem lookup_assignEntries (k k' : GoString) (v : List GoString)
    (es : List (GoString × List GoString)) :
    lookupEntries k (assignEntries k' v es) = if k' = k then some v else lookupEntries k es := by
  induction es with
  | nil => simp [assignEntries, lookupEntries]
  | cons e es ih =>
    obtain ⟨k2, v2⟩ := e
    by_cases h1 : k2 = k'
    · subst h1
      by_cases h2 : k2 = k <;> simp [assignEntries, lookupEntries, h2]
    · by_cases h2 : k' = k
      · subst h2
        simp [assignEntries, lookupEntries, h1, ih]
      · have h2' : ¬ k = k' := fun e => h2 e.symm
        by_cases h3 : k2 = k
        · subst h3
          simp [assignEntries, lookupEntries, h1, h2, h2']
        · simp [assignEntries, lookupEntries, h1, h2, h3, ih]

theorem lookup_assign (m : GoMap) (k k' : GoString) (v : List GoString) :
    (m.assign k' v).lookup k = if k' = k then some v else m.lookup k := by
  simp [GoMap.assign, GoMap.lookup, lookup_assignEntries]

theorem add_lookup (g : Grouping) (kv : KeyValue) (k : GoString) :
    (g.add kv).keyValuesMap.lookup k
      = if kv.Key = k then some (g.keyValuesMap.index kv.Key ++ [kv.Value])
        else g.keyValuesMap.lookup k := by
  unfold Grouping.add
  cases h : g.keyValuesMap.lookup kv.Key with
  | none =>
    by_cases hk : kv.Key = k
    · subst hk
      simp [lookup_assign, GoMap.index, h]
    · simp [lookup_assign, GoMap.index, h, hk]
  | some v =>
    by_cases hk : kv.Key = k
    · subst hk
      simp [lookup_assign, GoMap.index, h]
    · simp [lookup_assign, GoMap.index, h, hk]

theorem add_keys (g : Grouping) (kv : KeyValue) :
    (g.add kv).keys
      = if g.keyValuesMap.lookup kv.Key = none then g.keys ++ [kv.Key] else g.keys := by
  unfold Grouping.add
  cases h : g.keyValuesMap.lookup kv.Key <;> simp

theorem valuesOf_append (k : GoString) (rs ts : List KeyValue) :
    valuesOf k (rs ++ ts) = valuesOf k rs ++ valuesOf k ts := by
  simp [valuesOf]

theorem valuesOf_of_not_mem (k : GoString) (rs : List KeyValue) (h : k ∉ keysOf rs) :
    valuesOf k rs = [] := by
  simp only [valuesOf, List.map_eq_nil_iff, List.filter_eq_nil_iff]
  intro kv hkv hk
  exact h (List.mem_map.mpr ⟨kv, hkv, of_decide_eq_true hk⟩)

/-- The state of the locals after the records `rs` have gone through the loop body. -/
theorem group_inv (rs : List KeyValue) :
    (∀ k, (rs.foldl Grouping.add Grouping.init).keyValuesMap.lookup k
        = if k ∈ keysOf rs then some (valuesOf k rs) else none)
    ∧ (rs.foldl Grouping.add Grouping.init).keys.Nodup
    ∧ (∀ k, k ∈ (rs.foldl Grouping.add Grouping.init).keys ↔ k ∈ keysOf rs) := by
  induction rs using List.reverseRecOn with
  | nil => simp [Grouping.init, GoMap.empty, GoMap.lookup, lookupEntries, keysOf]
  | append_singleton rs kv ih =>
    obtain ⟨h1, h2, h3⟩ := ih
    rw [List.foldl_append, List.foldl_cons, List.foldl_nil]
    have hidx : (rs.foldl Grouping.add Grouping.init).keyValuesMap.index kv.Key
        = valuesOf kv.Key rs := by
      rw [GoMap.index, h1]
      by_cases hm : kv.Key ∈ keysOf rs
      · simp [hm]
      · simp [hm, valuesOf_of_not_mem _ _ hm]
    refine ⟨?_, ?_, ?_⟩
    · intro k
      rw [add_lookup, hidx, h1]
      by_cases hk : kv.Key = k
      · subst hk
        simp [keysOf, valuesOf]
      · have hk' : ¬ k = kv.Key := fun e => hk e.symm
        simp [keysOf, valuesOf, hk, hk']
    · rw [add_keys, h1]
      by_cases hm : kv.Key ∈ keysOf rs
      · simpa [hm] using h2
      · have : kv.Key ∉ (rs.foldl Grouping.add Grouping.init).keys := fun e => hm ((h3 _).mp e)
        simp only [hm, if_false, if_true]
        exact List.Nodup.append h2 (List.nodup_singleton _) (by simpa using this)
    · intro k
      rw [add_keys, h1]
      by_cases hm : kv.Key ∈ keysOf rs
      · simp only [hm, if_true]
        rw [if_neg (by simp), h3]
        simp only [keysOf, List.map_append, List.mem_append, List.map_cons, List.map_nil,
          List.mem_singleton]
        constructor
        · exact Or.inl
        · rintro (h | h)
          · exact h
          · rw [h]; exact hm
      · simp only [hm, if_false, if_true, List.mem_append, List.mem_singleton, h3]
        simp [keysOf]

/-! ## The loop over the shards -/

theorem shardLoop_congr (c : Codec) (fs fs' : FS) (name : Nat → GoString) (n m : Nat)
    (g : Grouping) (op : List GoString)
    (h : ∀ j, m ≤ j → j < m + n → fs'.osOpen (name j) = fs.osOpen (name j)) :
    shardLoop c fs' name n m g op = shardLoop c fs name n m g op := by
  induction n generalizing m g op with
  | zero => rfl
  | succ n ih =>
    rw [shardLoop, shardLoop, h m (Nat.le_refl _) (by omega)]
    cases fs.osOpen (name m) with
    | none => rfl
    | some s => exact ih _ _ _ (fun j h1 h2 => h j (by omega) (by omega))

/-- When every shard opens, the loop reads all of them, in order. -/
theorem shardLoop_ok (c : Codec) (fs : FS) (name : Nat → GoString) (n m : Nat)
    (g : Grouping) (op : List GoString)
    (h : ∀ j, m ≤ j → j < m + n → (fs.osOpen (name j)).isSome = true) :
    shardLoop c fs name n m g op
      = ⟨((List.range' m n).flatMap (shardRecords c fs name)).foldl Grouping.add g,
          op ++ (List.range' m n).map name, none⟩ := by
  induction n generalizing m g op with
  | zero => simp [shardLoop]
  | succ n ih =>
    have h0 := h m (Nat.le_refl _) (by omega)
    rw [shardLoop]
    cases hs : fs.osOpen (name m) with
    | none => simp [hs] at h0
    | some s =>
      simp only []
      rw [ih (m + 1) _ _ (fun j h1 h2 => h j (by omega) (by omega)), decodeLoop_eq]
      simp [List.range'_succ, List.flatMap_cons, List.foldl_append, shardRecords, hs,
        Codec.records]

/-- When some shard does not open, the loop ends in a panic at the first such shard. -/
theorem shardLoop_fail (c : Codec) (fs : FS) (name : Nat → GoString) (n m : Nat)
    (g : Grouping) (op : List GoString) (j : Nat) (hj1 : m ≤ j) (hj2 : j < m + n)
    (hj : fs.osOpen (name j) = none) :
    ∃ i, m ≤ i ∧ i ≤ j ∧ fs.osOpen (name i) = none
      ∧ (shardLoop c fs name n m g op).failure = some (Failure.openShard (name i))
      ∧ (shardLoop c fs name n m g op).opened = op ++ (List.range' m (i - m)).map name := by
  induction n generalizing m g op with
  | zero => omega
  | succ n ih =>
    rw [shardLoop]
    cases hs : fs.osOpen (name m) with
    | none => exact ⟨m, Nat.le_refl _, hj1, hs, by simp⟩
    | some s =>
      have hne : m ≠ j := by
        intro e
        rw [e, hj] at hs
        exact Option.noConfusion hs
      obtain ⟨i, h1, h2, h3, h4, h5⟩ := ih (m + 1) (decodeLoop c (s.length + 1) s g)
        (op ++ [name m]) (by omega) (by omega)
      refine ⟨i, by omega, h2, h3, h4, ?_⟩
      rw [h5]
      have : i - m = (i - (m + 1)) + 1 := by omega
      rw [this, List.range'_succ]
      simp

/-! ## The loop over the sorted keys -/

theorem overwrite_append (w old b : List Byte) :
    overwrite (w ++ old.drop w.length) w.length b
      = (w ++ b) ++ old.drop (w ++ b).length := by
  simp [overwrite, List.take_append_eq_append_take, List.drop_append_eq_append_drop,
    List.drop_drop, Nat.add_comm]

theorem encodeAll_cons (c : Codec) (kv : KeyValue) (rs : List KeyValue) :
    encodeAll c (kv :: rs) = c.encode kv ++ encodeAll c rs := by
  simp [encodeAll]

/-- The outcome of the loop over the keys, when it starts with the bytes `w` written so
far to an output file that held `old` when it was opened. -/
theorem writeLoop_eq (c : Codec) (reduceF : ReduceF) (kvm : GoMap) (outFile : GoString)
    (old : List Byte) (ks : List GoString) (w : List Byte) (r : Run)
    (hfile : r.fs.files outFile = some (w ++ old.drop w.length)) (hfail : r.failure = none) :
    (writeLoop c reduceF kvm outFile ks w.length r).opened = r.opened
    ∧ (writeLoop c reduceF kvm outFile ks w.length r).calls
        = r.calls ++ reduceCalls reduceF kvm ks
    ∧ (writeLoop c reduceF kvm outFile ks w.length r).written
        = r.written ++ reducedRecords reduceF kvm ks
    ∧ (writeLoop c reduceF kvm outFile ks w.length r).failure = reduceFailure reduceF kvm ks
    ∧ (writeLoop c reduceF kvm outFile ks w.length r).fs.mayRead = r.fs.mayRead
    ∧ (writeLoop c reduceF kvm outFile ks w.length r).fs.mayWrite = r.fs.mayWrite
    ∧ (writeLoop c reduceF kvm outFile ks w.length r).fs.files
        = fun p => if p = outFile then
            some ((w ++ encodeAll c (reducedRecords reduceF kvm ks))
              ++ old.drop (w ++ encodeAll c (reducedRecords reduceF kvm ks)).length)
          else r.fs.files p := by
  induction ks generalizing w r with
  | nil =>
    refine ⟨rfl, by simp [writeLoop, reduceCalls], by simp [writeLoop, reducedRecords],
      by simp [writeLoop, reduceFailure, hfail], rfl, rfl, ?_⟩
    funext p
    by_cases hp : p = outFile
    · subst hp
      simp [writeLoop, reducedRecords, encodeAll, hfile]
    · simp [writeLoop, hp]
  | cons k ks ih =>
    rw [writeLoop]
    cases hr : reduceF k (kvm.index k) with
    | error e =>
      refine ⟨rfl, by simp [reduceCalls, hr], by simp [reducedRecords, hr],
        by simp [reduceFailure, hr], rfl, rfl, ?_⟩
      funext p
      by_cases hp : p = outFile
      · subst hp
        simp [reducedRecords, hr, encodeAll, hfile]
      · simp [hp]
    | ok v =>
      simp only []
      have hlen : w.length + (c.encode ⟨k, v⟩).length = (w ++ c.encode ⟨k, v⟩).length := by
        simp
      rw [hlen]
      have hfile' : (FS.write r.fs outFile w.length (c.encode ⟨k, v⟩)).files outFile
          = some ((w ++ c.encode ⟨k, v⟩) ++ old.drop (w ++ c.encode ⟨k, v⟩).length) := by
        simp [FS.write, hfile, overwrite_append]
      obtain ⟨h1, h2, h3, h4, h5, h6, h7⟩ := ih (w ++ c.encode ⟨k, v⟩)
        ⟨FS.write r.fs outFile w.length (c.encode ⟨k, v⟩), r.opened,
          r.calls ++ [(k, kvm.index k)], r.written ++ [⟨k, v⟩], none⟩ hfile' rfl
      refine ⟨h1, ?_, ?_, ?_, h5, h6, ?_⟩
      · rw [h2]; simp [reduceCalls, hr]
      · rw [h3]; simp [reducedRecords, hr]
      · rw [h4]; simp [reduceFailure, hr]
      · rw [h7]
        funext p
        by_cases hp : p = outFile
        · simp [hp, reducedRecords, hr, encodeAll_cons, List.append_assoc]
        · simp [hp, FS.write]

theorem reducedRecords_keys_sublist (reduceF : ReduceF) (kvm : GoMap) (ks : List GoString) :
    (keysOf (reducedRecords reduceF kvm ks)).Sublist ks := by
  induction ks with
  | nil => simp [reducedRecords, keysOf]
  | cons k ks ih =>
    rw [reducedRecords]
    cases reduceF k (kvm.index k) with
    | error e => simp [keysOf]
    | ok v => simpa [keysOf] using ih

theorem reduceCalls_mem (reduceF : ReduceF) (kvm : GoMap) (ks : List GoString)
    (k : GoString) (vs : List GoString) (h : (k, vs) ∈ reduceCalls reduceF kvm ks) :
    k ∈ ks ∧ vs = kvm.index k := by
  induction ks with
  | nil => simp [reduceCalls] at h
  | cons k0 ks ih =>
    rw [reduceCalls, List.mem_cons] at h
    rcases h with h | h
    · simp only [Prod.mk.injEq] at h
      obtain ⟨h1, h2⟩ := h
      subst h1
      exact ⟨List.mem_cons_self _ _, h2⟩
    · cases hr : reduceF k0 (kvm.index k0) with
      | error e => simp [hr] at h
      | ok v =>
        rw [hr] at h
        exact ⟨List.mem_cons_of_mem _ (ih h).1, (ih h).2⟩

theorem reduceCalls_of_no_failure (reduceF : ReduceF) (kvm : GoMap) (ks : List GoString)
    (h : reduceFailure reduceF kvm ks = none) :
    reduceCalls reduceF kvm ks = ks.map (fun k => (k, kvm.index k)) := by
  induction ks with
  | nil => rfl
  | cons k ks ih =>
    rw [reduceFailure] at h
    rw [reduceCalls]
    cases hr : reduceF k (kvm.index k) with
    | error e => simp [hr] at h
    | ok v =>
      rw [hr] at h
      simp [ih h]

theorem reducedRecords_of_no_failure (reduceF : ReduceF) (kvm : GoMap) (ks : List GoString)
    (h : reduceFailure reduceF kvm ks = none) :
    keysOf (reducedRecords reduceF kvm ks) = ks := by
  induction ks with
  | nil => rfl
  | cons k ks ih =>
    rw [reduceFailure] at h
    rw [reducedRecords]
    cases hr : reduceF k (kvm.index k) with
    | error e => simp [hr] at h
    | ok v =>
      rw [hr] at h
      have := ih h
      simp only [keysOf] at this ⊢
      simp [this]

theorem reducedRecords_returning (f : GoString → List GoString → GoString) (kvm : GoMap)
    (ks : List GoString) :
    reducedRecords (returning f) kvm ks = ks.map (fun k => ⟨k, f k (kvm.index k)⟩) := by
  induction ks with
  | nil => rfl
  | cons k ks ih => simp [reducedRecords, returning, ih]

theorem reduceFailure_returning (f : GoString → List GoString → GoString) (kvm : GoMap)
    (ks : List GoString) : reduceFailure (returning f) kvm ks = none := by
  induction ks with
  | nil => rfl
  | cons k ks ih => simpa [reduceFailure, returning] using ih

/-! ## The three ways in which `doReduce` runs -/

theorem range_eq_range_zero (M : Nat) : List.range M = List.range' 0 M :=
  List.range_eq_range' M

/-- A run in which every shard opens and the output file opens. -/
theorem doReduce_ok (c : Codec) (reduceName : GoString → Int → Int → GoString) (fs : FS)
    (jobName : GoString) (reduceTask : Int) (outFile : GoString) (M : Nat) (reduceF : ReduceF)
    (hopen : ∀ m, m < M →
      (fs.osOpen (shardName reduceName jobName reduceTask m)).isSome = true)
    (hout : fs.mayWrite outFile = true) :
    (doReduce c reduceName fs jobName reduceTask outFile M reduceF).opened
        = (List.range M).map (shardName reduceName jobName reduceTask)
    ∧ (doReduce c reduceName fs jobName reduceTask outFile M reduceF).calls
        = reduceCalls reduceF
            (grouped (inputRecords c fs (shardName reduceName jobName reduceTask) M)).keyValuesMap
            (sortSort
              (grouped (inputRecords c fs (shardName reduceName jobName reduceTask) M)).keys)
    ∧ (doReduce c reduceName fs jobName reduceTask outFile M reduceF).written
        = reducedRecords reduceF
            (grouped (inputRecords c fs (shardName reduceName jobName reduceTask) M)).keyValuesMap
            (sortSort
              (grouped (inputRecords c fs (shardName reduceName jobName reduceTask) M)).keys)
    ∧ (doReduce c reduceName fs jobName reduceTask outFile M reduceF).failure
        = reduceFailure reduceF
            (grouped (inputRecords c fs (shardName reduceName jobName reduceTask) M)).keyValuesMap
            (sortSort
              (grouped (inputRecords c fs (shardName reduceName jobName reduceTask) M)).keys)
    ∧ (doReduce c reduceName fs jobName reduceTask outFile M reduceF).fs.mayRead = fs.mayRead
    ∧ (doReduce c reduceName fs jobName reduceTask outFile M reduceF).fs.mayWrite = fs.mayWrite
    ∧ (doReduce c reduceName fs jobName reduceTask outFile M reduceF).fs.files
        = fun p => if p = outFile then
            some (encodeAll c
                (doReduce c reduceName fs jobName reduceTask outFile M reduceF).written
              ++ ((fs.files outFile).getD []).drop (encodeAll c
                (doReduce c reduceName fs jobName reduceTask outFile M reduceF).written).length)
          else fs.files p := by
  have hsl := shardLoop_ok c fs (shardName reduceName jobName reduceTask) M 0 Grouping.init []
    (fun j _ h2 => hopen j (by omega))
  rw [← range_eq_range_zero] at hsl
  have hsl' : shardLoop c fs (fun m : Nat => reduceName jobName (m : Int) reduceTask)
      (M : Int).toNat 0 Grouping.init []
      = ⟨grouped (inputRecords c fs (shardName reduceName jobName reduceTask) M),
          [] ++ (List.range M).map (shardName reduceName jobName reduceTask), none⟩ := by
    rw [Int.toNat_ofNat]
    exact hsl
  have hof : fs.osOpenFile outFile
      = some ⟨fun p => if p = outFile then some ((fs.files outFile).getD []) else fs.files p,
          fs.mayRead, fs.mayWrite⟩ := by
    simp [FS.osOpenFile, hout]
  have hw := writeLoop_eq c reduceF
    (grouped (inputRecords c fs (shardName reduceName jobName reduceTask) M)).keyValuesMap
    outFile ((fs.files outFile).getD [])
    (sortSort (grouped (inputRecords c fs (shardName reduceName jobName reduceTask) M)).keys)
    []
    ⟨⟨fun p => if p = outFile then some ((fs.files outFile).getD []) else fs.files p,
        fs.mayRead, fs.mayWrite⟩,
      (List.range M).map (shardName reduceName jobName reduceTask), [], [], none⟩
    (by simp) rfl
  have hd : doReduce c reduceName fs jobName reduceTask outFile M reduceF
      = writeLoop c reduceF
          (grouped (inputRecords c fs (shardName reduceName jobName reduceTask) M)).keyValuesMap
          outFile
          (sortSort (grouped (inputRecords c fs (shardName reduceName jobName reduceTask) M)).keys)
          0
          ⟨⟨fun p => if p = outFile then some ((fs.files outFile).getD []) else fs.files p,
              fs.mayRead, fs.mayWrite⟩,
            (List.range M).map (shardName reduceName jobName reduceTask), [], [], none⟩ := by
    simp only [doReduce, hsl', hof, List.nil_append]
  rw [hd]
  obtain ⟨h1, h2, h3, h4, h5, h6, h7⟩ := hw
  simp only [List.length_nil, List.nil_append] at h1 h2 h3 h4 h5 h6 h7
  refine ⟨h1, h2, h3, h4, h5, h6, ?_⟩
  rw [h7, h3]
  funext p
  by_cases hp : p = outFile <;> simp [hp]

/-- A run in which some shard does not open: a panic at the first such shard, before the
output file is opened. -/
theorem doReduce_shard_fail (c : Codec) (reduceName : GoString → Int → Int → GoString)
    (fs : FS) (jobName : GoString) (reduceTask : Int) (outFile : GoString) (M : Nat)
    (reduceF : ReduceF) (j : Nat) (hj : j < M)
    (hfail : fs.osOpen (shardName reduceName jobName reduceTask j) = none) :
    ∃ i, i ≤ j ∧ fs.osOpen (shardName reduceName jobName reduceTask i) = none
      ∧ doReduce c reduceName fs jobName reduceTask outFile M reduceF
        = ⟨fs, (List.range i).map (shardName reduceName jobName reduceTask), [], [],
            some (Failure.openShard (shardName reduceName jobName reduceTask i))⟩ := by
  obtain ⟨i, _, h2, h3, h4, h5⟩ := shardLoop_fail c fs
    (shardName reduceName jobName reduceTask) M 0 Grouping.init [] j (Nat.zero_le _)
    (by omega) hfail
  refine ⟨i, h2, h3, ?_⟩
  have h4' : (shardLoop c fs (fun m : Nat => reduceName jobName (m : Int) reduceTask)
      (M : Int).toNat 0 Grouping.init []).failure
      = some (Failure.openShard (shardName reduceName jobName reduceTask i)) := by
    rw [Int.toNat_ofNat]
    exact h4
  have h5' : (shardLoop c fs (fun m : Nat => reduceName jobName (m : Int) reduceTask)
      (M : Int).toNat 0 Grouping.init []).opened
      = (List.range i).map (shardName reduceName jobName reduceTask) := by
    rw [Int.toNat_ofNat]
    simpa [range_eq_range_zero] using h5
  simp only [doReduce, h4', h5']

/-- A run in which every shard opens and the output file does not: a panic, with nothing
written. -/
theorem doReduce_out_fail (c : Codec) (reduceName : GoString → Int → Int → GoString)
    (fs : FS) (jobName : GoString) (reduceTask : Int) (outFile : GoString) (M : Nat)
    (reduceF : ReduceF)
    (hopen : ∀ m, m < M →
      (fs.osOpen (shardName reduceName jobName reduceTask m)).isSome = true)
    (hout : fs.mayWrite outFile = false) :
    doReduce c reduceName fs jobName reduceTask outFile M reduceF
      = ⟨fs, (List.range M).map (shardName reduceName jobName reduceTask), [], [],
          some (Failure.openOutput outFile)⟩ := by
  have hsl := shardLoop_ok c fs (shardName reduceName jobName reduceTask) M 0 Grouping.init []
    (fun j _ h2 => hopen j (by omega))
  rw [← range_eq_range_zero] at hsl
  have hsl' : shardLoop c fs (fun m : Nat => reduceName jobName (m : Int) reduceTask)
      (M : Int).toNat 0 Grouping.init []
      = ⟨grouped (inputRecords c fs (shardName reduceName jobName reduceTask) M),
          [] ++ (List.range M).map (shardName reduceName jobName reduceTask), none⟩ := by
    rw [Int.toNat_ofNat]
    exact hsl
  have hof : fs.osOpenFile outFile = none := by
    simp [FS.osOpenFile, hout]
  simp only [doReduce, hsl', hof, List.nil_append]

/-- A negative shard count behaves as zero: the loop over the shards does not run. -/
theorem doReduce_toNat (c : Codec) (reduceName : GoString → Int → Int → GoString)
    (fs : FS) (jobName : GoString) (reduceTask : Int) (outFile : GoString) (nMap : Int)
    (reduceF : ReduceF) :
    doReduce c reduceName fs jobName reduceTask outFile nMap reduceF
      = doReduce c reduceName fs jobName reduceTask outFile (nMap.toNat : Int) reduceF := by
  simp only [doReduce, Int.toNat_ofNat]

/-- Every run is of one of the three kinds. -/
theorem doReduce_cases (fs : FS) (name : Nat → GoString) (outFile : GoString) (M : Nat) :
    (∃ j, j < M ∧ fs.osOpen (name j) = none)
    ∨ ((∀ m, m < M → (fs.osOpen (name m)).isSome = true) ∧ fs.mayWrite outFile = false)
    ∨ ((∀ m, m < M → (fs.osOpen (name m)).isSome = true) ∧ fs.mayWrite outFile = true) := by
  by_cases h : ∃ j, j < M ∧ fs.osOpen (name j) = none
  · exact Or.inl h
  · have hall : ∀ m, m < M → (fs.osOpen (name m)).isSome = true := by
      intro m hm
      cases ho : fs.osOpen (name m) with
      | none => exact absurd ⟨m, hm, ho⟩ h
      | some s => rfl
    cases hw : fs.mayWrite outFile
    · exact Or.inr (Or.inl ⟨hall, rfl⟩)
    · exact Or.inr (Or.inr ⟨hall, rfl⟩)

/-! ## The grouped records -/

theorem grouped_index (rs : List KeyValue) (k : GoString) :
    (grouped rs).keyValuesMap.index k = valuesOf k rs := by
  rw [GoMap.index, grouped, (group_inv rs).1 k]
  by_cases hm : k ∈ keysOf rs
  · simp [hm]
  · simp [hm, valuesOf_of_not_mem _ _ hm]

theorem grouped_keys_nodup (rs : List KeyValue) : (grouped rs).keys.Nodup :=
  (group_inv rs).2.1

theorem grouped_keys_mem (rs : List KeyValue) (k : GoString) :
    k ∈ (grouped rs).keys ↔ k ∈ keysOf rs :=
  (group_inv rs).2.2 k

theorem sorted_keys_mem (rs : List KeyValue) (k : GoString) :
    k ∈ sortSort (grouped rs).keys ↔ k ∈ keysOf rs := by
  rw [(sortSort_perm _).mem_iff, grouped_keys_mem]

theorem sorted_keys_strict (rs : List KeyValue) :
    (sortSort (grouped rs).keys).Pairwise (fun a b => strLess a b = true) :=
  sortSort_strict _ (grouped_keys_nodup rs)

theorem valuesOf_flatMap (k : GoString) (l : List Nat) (recs : Nat → List KeyValue) :
    valuesOf k (l.flatMap recs) = l.flatMap (fun m => valuesOf k (recs m)) := by
  induction l with
  | nil => simp [valuesOf]
  | cons m l ih => simp [List.flatMap_cons, valuesOf_append, ih]

theorem length_valuesOf (k : GoString) (rs : List KeyValue) :
    (valuesOf k rs).length = occurrences k (keysOf rs) := by
  induction rs with
  | nil => simp [valuesOf, keysOf, occurrences]
  | cons kv rs ih =>
    simp only [valuesOf, keysOf, occurrences, List.map_cons, List.length_map] at ih ⊢
    by_cases h : kv.Key = k
    · simp [List.filter_cons, h, ih]
    · simp [List.filter_cons, h, ih]

theorem occurrences_eq_zero (k : GoString) (l : List GoString) (h : k ∉ l) :
    occurrences k l = 0 := by
  simp only [occurrences, List.length_eq_zero, List.filter_eq_nil_iff]
  intro x hx e
  exact h (of_decide_eq_true e ▸ hx)

theorem occurrences_eq_one (k : GoString) (l : List GoString) (hnd : l.Nodup) (h : k ∈ l) :
    occurrences k l = 1 := by
  induction l with
  | nil => exact absurd h (List.not_mem_nil _)
  | cons a l ih =>
    obtain ⟨ha, hl⟩ := List.nodup_cons.mp hnd
    by_cases e : a = k
    · subst e
      have := occurrences_eq_zero a l ha
      simp only [occurrences] at this ⊢
      simp [List.filter_cons, this]
    · have hk : k ∈ l := by
        rcases List.mem_cons.mp h with h | h
        · exact absurd h.symm e
        · exact h
      have := ih hl hk
      simp only [occurrences] at this ⊢
      simp [List.filter_cons, e, this]

theorem inputRecords_of_reads (c : Codec) (fs : FS) (name : Nat → GoString) (M : Nat)
    (recs : Nat → List KeyValue)
    (h : ∀ m, m < M → ∃ s rest, fs.osOpen (name m) = some s ∧ c.Reads s (recs m) rest) :
    inputRecords c fs name M = (List.range M).flatMap recs := by
  unfold inputRecords
  induction M with
  | zero => simp
  | succ M ih =>
    rw [List.range_succ, List.flatMap_append, List.flatMap_append,
      ih (fun m hm => h m (Nat.lt_succ_of_lt hm))]
    obtain ⟨s, rest, hs, hr⟩ := h M (Nat.lt_succ_self _)
    simp [shardRecords, hs, records_of_reads c _ s rest hr]

theorem mayWrite_of_osOpenFile (fs : FS) (outFile : GoString)
    (h : (fs.osOpenFile outFile).isSome = true) : fs.mayWrite outFile = true := by
  cases hw : fs.mayWrite outFile
  · simp [FS.osOpenFile, hw] at h
  · rfl

/-! ## The examples -/

theorem exampleFS_reads : ∀ m, m < 2 →
    ∃ s, exampleFS.osOpen (shardName exampleName [106] 0 m) = some s
      ∧ frameCodec.Reads s (exampleRecs m) [] := by
  intro m hm
  have h : m = 0 ∨ m = 1 := by omega
  rcases h with h | h
  · subst h
    exact ⟨[1, 1, 97, 49, 1, 1, 98, 50], rfl, _, rfl, _, rfl, rfl, rfl⟩
  · subst h
    exact ⟨[1, 1, 97, 51, 1, 1, 99, 52], rfl, _, rfl, _, rfl, rfl, rfl⟩

theorem exampleFS_opens : ∀ m, m < 2 →
    (exampleFS.osOpen (shardName exampleName [106] 0 m)).isSome = true := by
  intro m hm
  obtain ⟨s, hs, _⟩ := exampleFS_reads m hm
  rw [hs]
  rfl

/-- The scenario of the specification: with the shards (a, 1), (b, 2) and (a, 3), (c, 4)
and the reduce function that joins with commas, the run writes (a, "1,3"), (b, "2"),
(c, "4"). -/
theorem scenario_join :
    (doReduce frameCodec exampleName exampleFS [106] 0 [111] 2 (returning joinComma)).written
      = [⟨[97], [49, 44, 51]⟩, ⟨[98], [50]⟩, ⟨[99], [52]⟩] := by
  decide

/-! ## Properties of the reduce task -/

/-- C1. When every one of the `M` shards opens and decodes completely, to the records
`recs m`, then in a run whose output file opens the records written are exactly
`(k, reduceF(k, vals(k)))` for `k` running through the strictly ascending list `ks` of the
distinct keys of the input, where `vals(k)` lists the values recorded under `k` across
the shards `0, ..., M - 1`; the value written is the one that `reduceF` returned. -/
theorem doReduce_writes_reduced_groups (c : Codec)
    (reduceName : GoString → Int → Int → GoString) (fs : FS) (jobName : GoString)
    (reduceTask : Int) (outFile : GoString) (M : Nat)
    (f : GoString → List GoString → GoString) (recs : Nat → List KeyValue)
    (hshards : ∀ m, m < M →
      ∃ s, fs.osOpen (shardName reduceName jobName reduceTask m) = some s
        ∧ c.Reads s (recs m) [])
    (hout : (fs.osOpenFile outFile).isSome = true) :
    ∃ ks : List GoString,
      ks.Pairwise (fun a b => strLess a b = true)
      ∧ (∀ k, k ∈ ks ↔ k ∈ keysOf ((List.range M).flatMap recs))
      ∧ (doReduce c reduceName fs jobName reduceTask outFile M (returning f)).written
          = ks.map (fun k => ⟨k, f k (valuesOf k ((List.range M).flatMap recs))⟩) := by
  have hopen : ∀ m, m < M →
      (fs.osOpen (shardName reduceName jobName reduceTask m)).isSome = true := by
    intro m hm
    obtain ⟨s, hs, _⟩ := hshards m hm
    rw [hs]
    rfl
  have hin := inputRecords_of_reads c fs (shardName reduceName jobName reduceTask) M recs
    (fun m hm => by
      obtain ⟨s, hs, hr⟩ := hshards m hm
      exact ⟨s, [], hs, hr⟩)
  obtain ⟨_, _, h3, _⟩ := doReduce_ok c reduceName fs jobName reduceTask outFile M
    (returning f) hopen (mayWrite_of_osOpenFile fs outFile hout)
  rw [hin] at h3
  refine ⟨sortSort (grouped ((List.range M).flatMap recs)).keys, sorted_keys_strict _,
    sorted_keys_mem _, ?_⟩
  rw [h3, reducedRecords_returning]
  apply List.map_congr_left
  intro k _
  rw [grouped_index]

theorem doReduce_writes_reduced_groups_witness :
    (∀ m, m < 2 →
      ∃ s, exampleFS.osOpen (shardName exampleName [106] 0 m) = some s
        ∧ frameCodec.Reads s (exampleRecs m) [])
    ∧ (exampleFS.osOpenFile [111]).isSome = true
    ∧ ∃ ks : List GoString,
      ks.Pairwise (fun a b => strLess a b = true)
      ∧ (∀ k, k ∈ ks ↔ k ∈ keysOf ((List.range 2).flatMap exampleRecs))
      ∧ (doReduce frameCodec exampleName exampleFS [106] 0 [111] (2 : Nat)
            (returning joinComma)).written
          = ks.map (fun k => ⟨k, joinComma k (valuesOf k ((List.range 2).flatMap exampleRecs))⟩) :=
  ⟨exampleFS_reads, rfl,
    doReduce_writes_reduced_groups frameCodec exampleName exampleFS [106] 0 [111] 2 joinComma
      exampleRecs exampleFS_reads rfl⟩

/-- C2. For every input (any shard count, any file system, any reduce function, failing
runs included), the keys of the records written by `doReduce`, in the order in which they
are written, are strictly ascending for the byte-wise comparison of strings; in
particular no key is written twice. -/
theorem doReduce_written_keys_ascending (c : Codec)
    (reduceName : GoString → Int → Int → GoString) (fs : FS) (jobName : GoString)
    (reduceTask : Int) (outFile : GoString) (nMap : Int) (reduceF : ReduceF) :
    (keysOf (doReduce c reduceName fs jobName reduceTask outFile nMap reduceF).written).Pairwise
        (fun a b => strLess a b = true)
    ∧ (keysOf (doReduce c reduceName fs jobName reduceTask outFile nMap reduceF).written).Nodup := by
  have key : (keysOf (doReduce c reduceName fs jobName reduceTask outFile nMap
      reduceF).written).Pairwise (fun a b => strLess a b = true) := by
    rw [doReduce_toNat]
    rcases doReduce_cases fs (shardName reduceName jobName reduceTask) outFile nMap.toNat
      with ⟨j, hj, hf⟩ | ⟨hopen, hout⟩ | ⟨hopen, hout⟩
    · obtain ⟨i, _, _, hr⟩ := doReduce_shard_fail c reduceName fs jobName reduceTask outFile
        nMap.toNat reduceF j hj hf
      rw [hr]
      exact List.Pairwise.nil
    · rw [doReduce_out_fail c reduceName fs jobName reduceTask outFile nMap.toNat reduceF
        hopen hout]
      exact List.Pairwise.nil
    · obtain ⟨_, _, h3, _⟩ := doReduce_ok c reduceName fs jobName reduceTask outFile
        nMap.toNat reduceF hopen hout
      rw [h3]
      exact (sorted_keys_strict _).sublist (reducedRecords_keys_sublist _ _ _)
  refine ⟨key, ?_⟩
  refine (key.imp ?_ : List.Pairwise (fun a b => a ≠ b) _)
  intro a b hab e
  rw [e, strLess_irrefl] at hab
  exact Bool.noConfusion hab

/-- The keys of the records that a run writes. For valid inputs (every one of the `M`
shards opens and decodes completely, and the output file opens), the keys of the records
handed to the encoder are exactly the keys that occur in the records of the `M` input
shards. What the output file holds afterwards also depends on what it held before. -/
theorem doReduce_output_keys_eq_input_keys (c : Codec)
    (reduceName : GoString → Int → Int → GoString) (fs : FS) (jobName : GoString)
    (reduceTask : Int) (outFile : GoString) (M : Nat)
    (f : GoString → List GoString → GoString) (recs : Nat → List KeyValue)
    (hshards : ∀ m, m < M →
      ∃ s, fs.osOpen (shardName reduceName jobName reduceTask m) = some s
        ∧ c.Reads s (recs m) [])
    (hout : (fs.osOpenFile outFile).isSome = true) (k : GoString) :
    k ∈ keysOf (doReduce c reduceName fs jobName reduceTask outFile M (returning f)).written
      ↔ ∃ m, m < M ∧ k ∈ keysOf (recs m) := by
  have hopen : ∀ m, m < M →
      (fs.osOpen (shardName reduceName jobName reduceTask m)).isSome = true := by
    intro m hm
    obtain ⟨s, hs, _⟩ := hshards m hm
    rw [hs]
    rfl
  have hin := inputRecords_of_reads c fs (shardName reduceName jobName reduceTask) M recs
    (fun m hm => by
      obtain ⟨s, hs, hr⟩ := hshards m hm
      exact ⟨s, [], hs, hr⟩)
  obtain ⟨_, _, h3, _⟩ := doReduce_ok c reduceName fs jobName reduceTask outFile M
    (returning f) hopen (mayWrite_of_osOpenFile fs outFile hout)
  rw [hin] at h3
  have hk : keysOf (doReduce c reduceName fs jobName reduceTask outFile M
      (returning f)).written = sortSort (grouped ((List.range M).flatMap recs)).keys := by
    rw [h3]
    exact reducedRecords_of_no_failure _ _ _ (reduceFailure_returning f _ _)
  rw [hk, sorted_keys_mem]
  simp only [keysOf, List.mem_map, List.mem_flatMap, List.mem_range]
  constructor
  · rintro ⟨kv, ⟨m, hm, hkv⟩, rfl⟩
    exact ⟨m, hm, kv, hkv, rfl⟩
  · rintro ⟨m, hm, kv, hkv, rfl⟩
    exact ⟨kv, ⟨m, hm, hkv⟩, rfl⟩

theorem doReduce_output_keys_eq_input_keys_witness :
    (∀ m, m < 2 →
      ∃ s, exampleFS.osOpen (shardName exampleName [106] 0 m) = some s
        ∧ frameCodec.Reads s (exampleRecs m) [])
    ∧ (exampleFS.osOpenFile [111]).isSome = true
    ∧ ([99] ∈ keysOf (doReduce frameCodec exampleName exampleFS [106] 0 [111] (2 : Nat)
          (returning joinComma)).written
        ↔ ∃ m, m < 2 ∧ [99] ∈ keysOf (exampleRecs m)) :=
  ⟨exampleFS_reads, rfl,
    doReduce_output_keys_eq_input_keys frameCodec exampleName exampleFS [106] 0 [111] 2
      joinComma exampleRecs exampleFS_reads rfl [99]⟩

/-- C4. Whenever `doReduce` calls `reduceF` on a key `k` with the value list `vs`, the key
occurs in the input and `vs` is the concatenation, over the shards `m = 0, ..., M - 1` in
index order, of the values of the records of shard `m` with key `k`, in their order in
the shard and with repetitions; so the length of `vs` is the number of occurrences of `k`
in the input, and a key that occurs once gets a list of one element. -/
theorem doReduce_call_values (c : Codec)
    (reduceName : GoString → Int → Int → GoString) (fs : FS) (jobName : GoString)
    (reduceTask : Int) (outFile : GoString) (M : Nat) (reduceF : ReduceF)
    (k : GoString) (vs : List GoString)
    (hcall : (k, vs) ∈ (doReduce c reduceName fs jobName reduceTask outFile M reduceF).calls) :
    k ∈ keysOf (inputRecords c fs (shardName reduceName jobName reduceTask) M)
    ∧ vs = (List.range M).flatMap
        (fun m => valuesOf k (shardRecords c fs (shardName reduceName jobName reduceTask) m))
    ∧ vs.length
        = occurrences k (keysOf (inputRecords c fs (shardName reduceName jobName reduceTask) M))
    ∧ (occurrences k (keysOf (inputRecords c fs (shardName reduceName jobName reduceTask) M)) = 1
        → ∃ v, vs = [v]) := by
  rcases doReduce_cases fs (shardName reduceName jobName reduceTask) outFile M
    with ⟨j, hj, hf⟩ | ⟨hopen, hout⟩ | ⟨hopen, hout⟩
  · obtain ⟨i, _, _, hr⟩ := doReduce_shard_fail c reduceName fs jobName reduceTask outFile
      M reduceF j hj hf
    rw [hr] at hcall
    exact absurd hcall (List.not_mem_nil _)
  · rw [doReduce_out_fail c reduceName fs jobName reduceTask outFile M reduceF hopen hout]
      at hcall
    exact absurd hcall (List.not_mem_nil _)
  · obtain ⟨_, h2, _⟩ := doReduce_ok c reduceName fs jobName reduceTask outFile M reduceF
      hopen hout
    rw [h2] at hcall
    obtain ⟨hk, hv⟩ := reduceCalls_mem _ _ _ _ _ hcall
    rw [grouped_index] at hv
    have hlen : vs.length = occurrences k
        (keysOf (inputRecords c fs (shardName reduceName jobName reduceTask) M)) := by
      rw [hv, length_valuesOf]
    refine ⟨(sorted_keys_mem _ _).mp hk, ?_, hlen, ?_⟩
    · rw [hv, inputRecords, valuesOf_flatMap]
    · intro h1
      rw [h1] at hlen
      exact List.length_eq_one.mp hlen

theorem doReduce_call_values_witness :
    ([97], [[49], [51]]) ∈ (doReduce frameCodec exampleName exampleFS [106] 0 [111] (2 : Nat)
        (returning joinComma)).calls
    ∧ [[49], [51]] = (List.range 2).flatMap
        (fun m => valuesOf [97] (shardRecords frameCodec exampleFS (shardName exampleName [106] 0) m))
    ∧ ([[49], [51]] : List GoString).length
        = occurrences [97]
            (keysOf (inputRecords frameCodec exampleFS (shardName exampleName [106] 0) 2)) :=
  have h : ([97], [[49], [51]]) ∈ (doReduce frameCodec exampleName exampleFS [106] 0 [111]
      (2 : Nat) (returning joinComma)).calls := by decide
  ⟨h, (doReduce_call_values frameCodec exampleName exampleFS [106] 0 [111] 2
      (returning joinComma) [97] [[49], [51]] h).2.1,
    (doReduce_call_values frameCodec exampleName exampleFS [106] 0 [111] 2
      (returning joinComma) [97] [[49], [51]] h).2.2.1⟩

/-- C5. In every successful invocation of `doReduce` (one that ends without a panic),
`reduceF` is called exactly once on each distinct key of the input and never on a key that
does not occur in the input. -/
theorem doReduce_calls_once_per_key (c : Codec)
    (reduceName : GoString → Int → Int → GoString) (fs : FS) (jobName : GoString)
    (reduceTask : Int) (outFile : GoString) (M : Nat) (reduceF : ReduceF)
    (hsucc : (doReduce c reduceName fs jobName reduceTask outFile M reduceF).failure = none)
    (k : GoString) :
    (k ∈ keysOf (inputRecords c fs (shardName reduceName jobName reduceTask) M) →
      occurrences k
        ((doReduce c reduceName fs jobName reduceTask outFile M reduceF).calls.map Prod.fst) = 1)
    ∧ (k ∉ keysOf (inputRecords c fs (shardName reduceName jobName reduceTask) M) →
      occurrences k
        ((doReduce c reduceName fs jobName reduceTask outFile M reduceF).calls.map Prod.fst) = 0) := by
  rcases doReduce_cases fs (shardName reduceName jobName reduceTask) outFile M
    with ⟨j, hj, hf⟩ | ⟨hopen, hout⟩ | ⟨hopen, hout⟩
  · obtain ⟨i, _, _, hr⟩ := doReduce_shard_fail c reduceName fs jobName reduceTask outFile
      M reduceF j hj hf
    rw [hr] at hsucc
    exact Option.noConfusion hsucc
  · rw [doReduce_out_fail c reduceName fs jobName reduceTask outFile M reduceF hopen hout]
      at hsucc
    exact Option.noConfusion hsucc
  · obtain ⟨_, h2, _, h4, _⟩ := doReduce_ok c reduceName fs jobName reduceTask outFile M
      reduceF hopen hout
    rw [h4] at hsucc
    have hks : (doReduce c reduceName fs jobName reduceTask outFile M reduceF).calls.map
        Prod.fst = sortSort (grouped (inputRecords c fs
          (shardName reduceName jobName reduceTask) M)).keys := by
      rw [h2, reduceCalls_of_no_failure _ _ _ hsucc, List.map_map]
      exact List.map_id _
    rw [hks]
    have hnd : (sortSort (grouped (inputRecords c fs
        (shardName reduceName jobName reduceTask) M)).keys).Nodup :=
      (sortSort_perm _).nodup_iff.mpr (grouped_keys_nodup _)
    constructor
    · intro hk
      exact occurrences_eq_one _ _ hnd ((sorted_keys_mem _ _).mpr hk)
    · intro hk
      exact occurrences_eq_zero _ _ (fun h => hk ((sorted_keys_mem _ _).mp h))

theorem doReduce_calls_once_per_key_witness :
    (doReduce frameCodec exampleName exampleFS [106] 0 [111] (2 : Nat)
        (returning joinComma)).failure = none
    ∧ occurrences [97] ((doReduce frameCodec exampleName exampleFS [106] 0 [111] (2 : Nat)
        (returning joinComma)).calls.map Prod.fst) = 1 :=
  ⟨by decide,
    (doReduce_calls_once_per_key frameCodec exampleName exampleFS [106] 0 [111] 2
      (returning joinComma) (by decide) [97]).1 (by decide)⟩

/-- C6, evaluated on an output path that already holds a longer file: the run succeeds and
writes three records, 14 bytes, and the output file afterwards holds these 14 bytes
followed by the last four bytes of its earlier content, the stale record (z, "9"). The
file is not truncated. -/
theorem doReduce_keeps_stale_output :
    (doReduce frameCodec exampleName staleFS [106] 0 [111] 2 (returning joinComma)).failure
        = none
    ∧ encodeAll frameCodec
        (doReduce frameCodec exampleName staleFS [106] 0 [111] 2 (returning joinComma)).written
        = [1, 3, 97, 49, 44, 51, 1, 1, 98, 50, 1, 1, 99, 52]
    ∧ (doReduce frameCodec exampleName staleFS [106] 0 [111] 2 (returning joinComma)).fs.files
        [111] = some ([1, 3, 97, 49, 44, 51, 1, 1, 98, 50, 1, 1, 99, 52] ++ [1, 1, 122, 57])
    ∧ (doReduce frameCodec exampleName staleFS [106] 0 [111] 2 (returning joinComma)).fs.files
        [111] ≠ some (encodeAll frameCodec
          (doReduce frameCodec exampleName staleFS [106] 0 [111] 2
            (returning joinComma)).written) := by
  decide

/-- C7. If the shard file of some `m < M` cannot be opened, `doReduce` ends in a panic
on a failed shard open (at the first shard that does not open, however many shards were
read before it), the file system is unchanged, so that the output file has not been
created, opened or written, and no record has been written. -/
theorem doReduce_shard_open_failure (c : Codec)
    (reduceName : GoString → Int → Int → GoString) (fs : FS) (jobName : GoString)
    (reduceTask : Int) (outFile : GoString) (M : Nat) (reduceF : ReduceF) (m : Nat)
    (hm : m < M) (hfail : fs.osOpen (shardName reduceName jobName reduceTask m) = none) :
    (∃ i, i ≤ m
      ∧ (doReduce c reduceName fs jobName reduceTask outFile M reduceF).failure
          = some (Failure.openShard (shardName reduceName jobName reduceTask i)))
    ∧ (doReduce c reduceName fs jobName reduceTask outFile M reduceF).fs = fs
    ∧ (doReduce c reduceName fs jobName reduceTask outFile M reduceF).written = [] := by
  obtain ⟨i, hi, _, hr⟩ := doReduce_shard_fail c reduceName fs jobName reduceTask outFile
    M reduceF m hm hfail
  rw [hr]
  exact ⟨⟨i, hi, rfl⟩, rfl, rfl⟩

theorem doReduce_shard_open_failure_witness :
    1 < 2 ∧ missingFS.osOpen (shardName exampleName [106] 0 1) = none
    ∧ (∃ i, i ≤ 1
      ∧ (doReduce frameCodec exampleName missingFS [106] 0 [111] (2 : Nat)
          (returning joinComma)).failure
          = some (Failure.openShard (shardName exampleName [106] 0 i)))
    ∧ (doReduce frameCodec exampleName missingFS [106] 0 [111] (2 : Nat)
          (returning joinComma)).fs = missingFS
    ∧ (doReduce frameCodec exampleName missingFS [106] 0 [111] (2 : Nat)
          (returning joinComma)).written = [] :=
  ⟨by decide, rfl,
    doReduce_shard_open_failure frameCodec exampleName missingFS [106] 0 [111] 2
      (returning joinComma) 1 (by decide) rfl⟩

/-- C8. If all the shards are read and the output file cannot be created or opened,
`doReduce` ends in a panic on the failed open, the file system is unchanged and no record
has been written to any file. -/
theorem doReduce_output_open_failure (c : Codec)
    (reduceName : GoString → Int → Int → GoString) (fs : FS) (jobName : GoString)
    (reduceTask : Int) (outFile : GoString) (M : Nat) (reduceF : ReduceF)
    (hopen : ∀ m, m < M →
      (fs.osOpen (shardName reduceName jobName reduceTask m)).isSome = true)
    (hout : fs.osOpenFile outFile = none) :
    (doReduce c reduceName fs jobName reduceTask outFile M reduceF).failure
        = some (Failure.openOutput outFile)
    ∧ (doReduce c reduceName fs jobName reduceTask outFile M reduceF).fs = fs
    ∧ (doReduce c reduceName fs jobName reduceTask outFile M reduceF).written = [] := by
  have hw : fs.mayWrite outFile = false := by
    cases h : fs.mayWrite outFile
    · rfl
    · simp [FS.osOpenFile, h] at hout
  rw [doReduce_out_fail c reduceName fs jobName reduceTask outFile M reduceF hopen hw]
  exact ⟨rfl, rfl, rfl⟩

theorem doReduce_output_open_failure_witness :
    (∀ m, m < 2 → (readOnlyFS.osOpen (shardName exampleName [106] 0 m)).isSome = true)
    ∧ readOnlyFS.osOpenFile [111] = none
    ∧ (doReduce frameCodec exampleName readOnlyFS [106] 0 [111] (2 : Nat)
          (returning joinComma)).failure = some (Failure.openOutput [111])
    ∧ (doReduce frameCodec exampleName readOnlyFS [106] 0 [111] (2 : Nat)
          (returning joinComma)).fs = readOnlyFS
    ∧ (doReduce frameCodec exampleName readOnlyFS [106] 0 [111] (2 : Nat)
          (returning joinComma)).written = [] :=
  have h : ∀ m, m < 2 → (readOnlyFS.osOpen (shardName exampleName [106] 0 m)).isSome = true :=
    exampleFS_opens
  ⟨h, rfl,
    doReduce_output_open_failure frameCodec exampleName readOnlyFS [106] 0 [111] 2
      (returning joinComma) h rfl⟩

/-- C9. A decode error in a shard is treated as the end of that shard. Let every shard `m`
open on a stream from which the records `recs m` decode before the first failing decode,
whatever the unread bytes `rest` from the failing decode onward are, and let the output
file open. Then the run does not fail, every one of the `M` shards is opened, and the
value lists that `reduceF` receives, and the records written, are those of the records
`recs m` alone: the records before the failing decode are grouped, and the bytes from the
failing decode onward have no effect. -/
theorem doReduce_decode_error_ends_shard (c : Codec)
    (reduceName : GoString → Int → Int → GoString) (fs : FS) (jobName : GoString)
    (reduceTask : Int) (outFile : GoString) (M : Nat)
    (f : GoString → List GoString → GoString) (recs : Nat → List KeyValue)
    (hshards : ∀ m, m < M →
      ∃ s rest, fs.osOpen (shardName reduceName jobName reduceTask m) = some s
        ∧ c.Reads s (recs m) rest)
    (hout : (fs.osOpenFile outFile).isSome = true) :
    (doReduce c reduceName fs jobName reduceTask outFile M (returning f)).failure = none
    ∧ (doReduce c reduceName fs jobName reduceTask outFile M (returning f)).opened
        = (List.range M).map (shardName reduceName jobName reduceTask)
    ∧ ∃ ks : List GoString,
        ks.Pairwise (fun a b => strLess a b = true)
        ∧ (∀ k, k ∈ ks ↔ ∃ m, m < M ∧ k ∈ keysOf (recs m))
        ∧ (doReduce c reduceName fs jobName reduceTask outFile M (returning f)).calls
            = ks.map (fun k => (k, (List.range M).flatMap (fun m => valuesOf k (recs m))))
        ∧ (doReduce c reduceName fs jobName reduceTask outFile M (returning f)).written
            = ks.map (fun k =>
                ⟨k, f k ((List.range M).flatMap (fun m => valuesOf k (recs m)))⟩) := by
  have hopen : ∀ m, m < M →
      (fs.osOpen (shardName reduceName jobName reduceTask m)).isSome = true := by
    intro m hm
    obtain ⟨s, _, hs, _⟩ := hshards m hm
    rw [hs]
    rfl
  have hin := inputRecords_of_reads c fs (shardName reduceName jobName reduceTask) M recs
    hshards
  obtain ⟨h1, h2, h3, h4, _⟩ := doReduce_ok c reduceName fs jobName reduceTask outFile M
    (returning f) hopen (mayWrite_of_osOpenFile fs outFile hout)
  rw [hin] at h2 h3 h4
  refine ⟨?_, h1, sortSort (grouped ((List.range M).flatMap recs)).keys,
    sorted_keys_strict _, ?_, ?_, ?_⟩
  · rw [h4, reduceFailure_returning]
  · intro k
    rw [sorted_keys_mem]
    simp only [keysOf, List.mem_map, List.mem_flatMap, List.mem_range]
    constructor
    · rintro ⟨kv, ⟨m, hm, hkv⟩, rfl⟩
      exact ⟨m, hm, kv, hkv, rfl⟩
    · rintro ⟨m, hm, kv, hkv, rfl⟩
      exact ⟨kv, ⟨m, hm, hkv⟩, rfl⟩
  · rw [h2, reduceCalls_of_no_failure _ _ _ (reduceFailure_returning f _ _)]
    apply List.map_congr_left
    intro k _
    rw [grouped_index, valuesOf_flatMap]
  · rw [h3, reducedRecords_returning]
    apply List.map_congr_left
    intro k _
    rw [grouped_index, valuesOf_flatMap]

theorem garbledFS_reads : ∀ m, m < 2 →
    ∃ s rest, garbledFS.osOpen (shardName exampleName [106] 0 m) = some s
      ∧ frameCodec.Reads s (garbledRecs m) rest := by
  intro m hm
  have h : m = 0 ∨ m = 1 := by omega
  rcases h with h | h
  · subst h
    exact ⟨[1, 1, 97, 49, 9, 9, 9], [9, 9, 9], rfl, _, rfl, rfl, rfl⟩
  · subst h
    exact ⟨[1, 1, 97, 51, 1, 1, 99, 52], [], rfl, _, rfl, _, rfl, rfl, rfl⟩

theorem doReduce_decode_error_ends_shard_witness :
    (∀ m, m < 2 →
      ∃ s rest, garbledFS.osOpen (shardName exampleName [106] 0 m) = some s
        ∧ frameCodec.Reads s (garbledRecs m) rest)
    ∧ (garbledFS.osOpenFile [111]).isSome = true
    ∧ (doReduce frameCodec exampleName garbledFS [106] 0 [111] (2 : Nat)
        (returning joinComma)).failure = none
    ∧ (doReduce frameCodec exampleName garbledFS [106] 0 [111] (2 : Nat)
        (returning joinComma)).opened = (List.range 2).map (shardName exampleName [106] 0) :=
  ⟨garbledFS_reads, rfl,
    (doReduce_decode_error_ends_shard frameCodec exampleName garbledFS [106] 0 [111] 2
      joinComma garbledRecs garbledFS_reads rfl).1,
    (doReduce_decode_error_ends_shard frameCodec exampleName garbledFS [106] 0 [111] 2
      joinComma garbledRecs garbledFS_reads rfl).2.1⟩

/-- The run on `garbledFS`: the record (a, 1) before the bytes that do not decode is
grouped with the record (a, 3) of the next shard. -/
theorem scenario_garbled :
    (doReduce frameCodec exampleName garbledFS [106] 0 [111] 2 (returning joinComma)).written
      = [⟨[97], [49, 44, 51]⟩, ⟨[99], [52]⟩] := by
  decide

theorem inputRecords_congr (c : Codec) (fs fs' : FS) (name : Nat → GoString) (M : Nat)
    (h : ∀ m, m < M → fs'.osOpen (name m) = fs.osOpen (name m)) :
    inputRecords c fs' name M = inputRecords c fs name M := by
  unfold inputRecords
  induction M with
  | zero => rfl
  | succ M ih =>
    rw [List.range_succ, List.flatMap_append, List.flatMap_append,
      ih (fun m hm => h m (Nat.lt_succ_of_lt hm))]
    simp [shardRecords, h M (Nat.lt_succ_self _)]

theorem fs_eq (a b : FS) (h1 : a.files = b.files) (h2 : a.mayRead = b.mayRead)
    (h3 : a.mayWrite = b.mayWrite) : a = b := by
  cases a
  cases b
  simp only [FS.mk.injEq]
  exact ⟨h1, h2, h3⟩

theorem run_eq (a b : Run) (h1 : a.fs = b.fs) (h2 : a.opened = b.opened)
    (h3 : a.calls = b.calls) (h4 : a.written = b.written) (h5 : a.failure = b.failure) :
    a = b := by
  cases a
  cases b
  simp only [Run.mk.injEq]
  exact ⟨h1, h2, h3, h4, h5⟩

/-- C10. Running `doReduce` again with the same arguments, on the file system that the
first run left and with the shards reading as they did for the first run, reproduces the
first run: the same calls, the same records written, the same end, and a file system,
the content of the output file included, equal to the one after the first run alone. -/
theorem doReduce_idempotent (c : Codec)
    (reduceName : GoString → Int → Int → GoString) (fs : FS) (jobName : GoString)
    (reduceTask : Int) (outFile : GoString) (M : Nat) (reduceF : ReduceF)
    (hsame : ∀ m, m < M →
      (doReduce c reduceName fs jobName reduceTask outFile M reduceF).fs.osOpen
          (shardName reduceName jobName reduceTask m)
        = fs.osOpen (shardName reduceName jobName reduceTask m)) :
    doReduce c reduceName (doReduce c reduceName fs jobName reduceTask outFile M reduceF).fs
        jobName reduceTask outFile M reduceF
      = doReduce c reduceName fs jobName reduceTask outFile M reduceF
    ∧ (doReduce c reduceName (doReduce c reduceName fs jobName reduceTask outFile M reduceF).fs
        jobName reduceTask outFile M reduceF).fs.files outFile
      = (doReduce c reduceName fs jobName reduceTask outFile M reduceF).fs.files outFile := by
  suffices hrun : doReduce c reduceName
      (doReduce c reduceName fs jobName reduceTask outFile M reduceF).fs
      jobName reduceTask outFile M reduceF
      = doReduce c reduceName fs jobName reduceTask outFile M reduceF by
    exact ⟨hrun, by rw [hrun]⟩
  rcases doReduce_cases fs (shardName reduceName jobName reduceTask) outFile M
    with ⟨j, hj, hf⟩ | ⟨hopen, hout⟩ | ⟨hopen, hout⟩
  · obtain ⟨i, _, _, hr⟩ := doReduce_shard_fail c reduceName fs jobName reduceTask outFile
      M reduceF j hj hf
    have h : (doReduce c reduceName fs jobName reduceTask outFile M reduceF).fs = fs := by
      rw [hr]
    rw [h]
  · have h : (doReduce c reduceName fs jobName reduceTask outFile M reduceF).fs = fs := by
      rw [doReduce_out_fail c reduceName fs jobName reduceTask outFile M reduceF hopen hout]
    rw [h]
  · obtain ⟨h1, h2, h3, h4, h5, h6, h7⟩ := doReduce_ok c reduceName fs jobName reduceTask
      outFile M reduceF hopen hout
    have hopen' : ∀ m, m < M →
        ((doReduce c reduceName fs jobName reduceTask outFile M reduceF).fs.osOpen
          (shardName reduceName jobName reduceTask m)).isSome = true := by
      intro m hm
      rw [hsame m hm]
      exact hopen m hm
    have hout' : (doReduce c reduceName fs jobName reduceTask outFile M reduceF).fs.mayWrite
        outFile = true := by
      rw [h6]
      exact hout
    obtain ⟨g1, g2, g3, g4, g5, g6, g7⟩ := doReduce_ok c reduceName
      (doReduce c reduceName fs jobName reduceTask outFile M reduceF).fs jobName reduceTask
      outFile M reduceF hopen' hout'
    have hin := inputRecords_congr c fs
      (doReduce c reduceName fs jobName reduceTask outFile M reduceF).fs
      (shardName reduceName jobName reduceTask) M hsame
    rw [hin] at g2 g3 g4
    have hw : (doReduce c reduceName
        (doReduce c reduceName fs jobName reduceTask outFile M reduceF).fs
        jobName reduceTask outFile M reduceF).written
        = (doReduce c reduceName fs jobName reduceTask outFile M reduceF).written := by
      rw [g3, h3]
    refine run_eq _ _ (fs_eq _ _ ?_ (by rw [g5]) (by rw [g6])) (by rw [g1, h1])
      (by rw [g2, h2]) hw (by rw [g4, h4])
    rw [g7, hw]
    funext p
    by_cases hp : p = outFile
    · subst hp
      rw [if_pos rfl]
      have hfile := congrFun h7 p
      rw [if_pos rfl] at hfile
      rw [hfile]
      simp
    · rw [if_neg hp]

theorem doReduce_idempotent_witness :
    (∀ m, m < 2 →
      (doReduce frameCodec exampleName staleFS [106] 0 [111] (2 : Nat)
          (returning joinComma)).fs.osOpen (shardName exampleName [106] 0 m)
        = staleFS.osOpen (shardName exampleName [106] 0 m))
    ∧ doReduce frameCodec exampleName
        (doReduce frameCodec exampleName staleFS [106] 0 [111] (2 : Nat)
          (returning joinComma)).fs [106] 0 [111] (2 : Nat) (returning joinComma)
      = doReduce frameCodec exampleName staleFS [106] 0 [111] (2 : Nat) (returning joinComma)
    ∧ (doReduce frameCodec exampleName
        (doReduce frameCodec exampleName staleFS [106] 0 [111] (2 : Nat)
          (returning joinComma)).fs [106] 0 [111] (2 : Nat) (returning joinComma)).fs.files [111]
      = (doReduce frameCodec exampleName staleFS [106] 0 [111] (2 : Nat)
          (returning joinComma)).fs.files [111] :=
  have h : ∀ m, m < 2 →
      (doReduce frameCodec exampleName staleFS [106] 0 [111] (2 : Nat)
          (returning joinComma)).fs.osOpen (shardName exampleName [106] 0 m)
        = staleFS.osOpen (shardName exampleName [106] 0 m) := by
    intro m hm
    have h : m = 0 ∨ m = 1 := by omega
    rcases h with h | h
    · subst h; decide
    · subst h; decide
  ⟨h, doReduce_idempotent frameCodec exampleName staleFS [106] 0 [111] 2
      (returning joinComma) h⟩

/-- A run without shards whose output file opens: no shard file is opened, `reduceF` is
not called, no record is written, and the output file exists afterwards with the content
that it had before, empty if it did not exist. -/
theorem doReduce_no_shards (c : Codec) (reduceName : GoString → Int → Int → GoString)
    (fs : FS) (jobName : GoString) (reduceTask : Int) (outFile : GoString) (reduceF : ReduceF)
    (hout : fs.mayWrite outFile = true) :
    (doReduce c reduceName fs jobName reduceTask outFile 0 reduceF).opened = []
    ∧ (doReduce c reduceName fs jobName reduceTask outFile 0 reduceF).calls = []
    ∧ (doReduce c reduceName fs jobName reduceTask outFile 0 reduceF).written = []
    ∧ (doReduce c reduceName fs jobName reduceTask outFile 0 reduceF).failure = none
    ∧ (doReduce c reduceName fs jobName reduceTask outFile 0 reduceF).fs.files outFile
        = some ((fs.files outFile).getD []) := by
  obtain ⟨h1, h2, h3, h4, _, _, h7⟩ := doReduce_ok c reduceName fs jobName reduceTask outFile
    0 reduceF (fun m hm => absurd hm (Nat.not_lt_zero m)) hout
  simp only [Nat.cast_zero] at h1 h2 h3 h4 h7
  have hk : sortSort (grouped (inputRecords c fs (shardName reduceName jobName reduceTask)
      0)).keys = [] := by
    simp [inputRecords, grouped, Grouping.init, sortSort, insertionOuter, StringSlice.Len]
  rw [hk] at h2 h3 h4
  have h3' : (doReduce c reduceName fs jobName reduceTask outFile 0 reduceF).written
      = [] := by
    rw [h3]; rfl
  refine ⟨by simpa using h1, by rw [h2]; rfl, h3', by rw [h4]; rfl, ?_⟩
  have := congrFun h7 outFile
  rw [h3'] at this
  simpa [encodeAll] using this

/-- C11, evaluated without shards on an output path that already holds a file: the run
opens no shard file, does not call `reduceF`, writes no record and ends without panic,
and the output file still holds the 18 bytes, four records, that it held before. The
file is not truncated, so it is not empty. -/
theorem doReduce_no_shards_keeps_old_output :
    (doReduce frameCodec exampleName staleFS [106] 0 [111] 0 (returning joinComma)).opened = []
    ∧ (doReduce frameCodec exampleName staleFS [106] 0 [111] 0 (returning joinComma)).calls = []
    ∧ (doReduce frameCodec exampleName staleFS [106] 0 [111] 0 (returning joinComma)).written
        = []
    ∧ (doReduce frameCodec exampleName staleFS [106] 0 [111] 0 (returning joinComma)).failure
        = none
    ∧ (doReduce frameCodec exampleName staleFS [106] 0 [111] 0 (returning joinComma)).fs.files
        [111] = some [1, 3, 97, 49, 44, 51, 1, 1, 98, 50, 1, 1, 99, 52, 1, 1, 122, 57]
    ∧ frameCodec.records [1, 3, 97, 49, 44, 51, 1, 1, 98, 50, 1, 1, 99, 52, 1, 1, 122, 57]
        = [⟨[97], [49, 44, 51]⟩, ⟨[98], [50]⟩, ⟨[99], [52]⟩, ⟨[122], [57]⟩] := by
  decide

/-- C12. `doReduce` does not change any file other than the output file: in every run,
failing runs included, every path other than `outFile` has afterwards the content that it
had before, and opens for reading as before; so when `outFile` is not the path of a shard,
the files of all the shards are unchanged. -/
theorem doReduce_other_files_unchanged (c : Codec)
    (reduceName : GoString → Int → Int → GoString) (fs : FS) (jobName : GoString)
    (reduceTask : Int) (outFile : GoString) (nMap : Int) (reduceF : ReduceF) :
    (∀ p, p ≠ outFile →
      (doReduce c reduceName fs jobName reduceTask outFile nMap reduceF).fs.files p = fs.files p
      ∧ (doReduce c reduceName fs jobName reduceTask outFile nMap reduceF).fs.osOpen p
          = fs.osOpen p)
    ∧ ((∀ m : Nat, (m : Int) < nMap → shardName reduceName jobName reduceTask m ≠ outFile) →
      ∀ m : Nat, (m : Int) < nMap →
        (doReduce c reduceName fs jobName reduceTask outFile nMap reduceF).fs.files
            (shardName reduceName jobName reduceTask m)
          = fs.files (shardName reduceName jobName reduceTask m)) := by
  have key : ∀ p, p ≠ outFile →
      (doReduce c reduceName fs jobName reduceTask outFile nMap reduceF).fs.files p = fs.files p
      ∧ (doReduce c reduceName fs jobName reduceTask outFile nMap reduceF).fs.osOpen p
          = fs.osOpen p := by
    intro p hp
    rw [doReduce_toNat]
    rcases doReduce_cases fs (shardName reduceName jobName reduceTask) outFile nMap.toNat
      with ⟨j, hj, hf⟩ | ⟨hopen, hout⟩ | ⟨hopen, hout⟩
    · obtain ⟨i, _, _, hr⟩ := doReduce_shard_fail c reduceName fs jobName reduceTask outFile
        nMap.toNat reduceF j hj hf
      rw [hr]
      exact ⟨rfl, rfl⟩
    · rw [doReduce_out_fail c reduceName fs jobName reduceTask outFile nMap.toNat reduceF
        hopen hout]
      exact ⟨rfl, rfl⟩
    · obtain ⟨_, _, _, _, h5, _, h7⟩ := doReduce_ok c reduceName fs jobName reduceTask outFile
        nMap.toNat reduceF hopen hout
      have hfile := congrFun h7 p
      rw [if_neg hp] at hfile
      refine ⟨hfile, ?_⟩
      simp only [FS.osOpen, h5, hfile]
  exact ⟨key, fun hne m hm => (key _ (hne m hm)).1⟩

theorem doReduce_other_files_unchanged_witness :
    ([106, 0, 0] : GoString) ≠ [111]
    ∧ (doReduce frameCodec exampleName staleFS [106] 0 [111] 2 (returning joinComma)).fs.files
        [106, 0, 0] = staleFS.files [106, 0, 0]
    ∧ (doReduce frameCodec exampleName staleFS [106] 0 [111] 2 (returning joinComma)).fs.files
        (shardName exampleName [106] 0 1) = staleFS.files (shardName exampleName [106] 0 1) :=
  ⟨by decide,
    ((doReduce_other_files_unchanged frameCodec exampleName staleFS [106] 0 [111] 2
      (returning joinComma)).1 [106, 0, 0] (by decide)).1,
    (doReduce_other_files_unchanged frameCodec exampleName staleFS [106] 0 [111] 2
      (returning joinComma)).2
      (fun m hm => by
        have h : m = 0 ∨ m = 1 := by omega
        rcases h with h | h <;> subst h <;> decide) 1 (by decide)⟩

/-- The loop over strictly ascending keys, when one of its calls to `reduceF` panics: the
loop ends in that panic, and the keys written and called before are smaller. -/
theorem reduce_loop_failure (reduceF : ReduceF) (kvm : GoMap) (ks : List GoString)
    (k : GoString) (vs : List GoString) (e : PanicValue)
    (hs : ks.Pairwise (fun a b => strLess a b = true))
    (hc : (k, vs) ∈ reduceCalls reduceF kvm ks) (he : reduceF k vs = Except.error e) :
    reduceFailure reduceF kvm ks = some (Failure.inReduceF e)
    ∧ (∀ kv, kv ∈ reducedRecords reduceF kvm ks → strLess kv.Key k = true)
    ∧ (∀ q, q ∈ reduceCalls reduceF kvm ks → q.1 = k ∨ strLess q.1 k = true) := by
  induction ks with
  | nil => simp [reduceCalls] at hc
  | cons k0 ks ih =>
    obtain ⟨h0, hs'⟩ := List.pairwise_cons.mp hs
    rw [reduceCalls, List.mem_cons] at hc
    rw [reduceFailure, reducedRecords, reduceCalls]
    cases hr : reduceF k0 (kvm.index k0) with
    | error e0 =>
      rw [hr] at hc
      simp only [List.not_mem_nil, or_false, Prod.mk.injEq] at hc
      obtain ⟨hk, hv⟩ := hc
      subst hk
      subst hv
      rw [hr] at he
      simp only [Except.error.injEq] at he
      subst he
      refine ⟨rfl, ?_, ?_⟩
      · intro kv hkv
        exact absurd hkv (List.not_mem_nil _)
      · intro q hq
        simp only [List.mem_singleton] at hq
        rw [hq]
        exact Or.inl rfl
    | ok v =>
      rw [hr] at hc
      rcases hc with hc | hc
      · simp only [Prod.mk.injEq] at hc
        obtain ⟨hk, hv⟩ := hc
        subst hk
        subst hv
        rw [hr] at he
        exact Except.noConfusion he
      · obtain ⟨i1, i2, i3⟩ := ih hs' hc
        have hlt : strLess k0 k = true := h0 k (reduceCalls_mem _ _ _ _ _ hc).1
        refine ⟨i1, ?_, ?_⟩
        · intro kv hkv
          rcases List.mem_cons.mp hkv with h | h
          · rw [h]
            exact hlt
          · exact i2 kv h
        · intro q hq
          rcases List.mem_cons.mp hq with h | h
          · rw [h]
            exact Or.inr hlt
          · exact i3 q h

/-- C13. If a call `reduceF(k, vs)` that `doReduce` makes panics with the value `e`, the
invocation ends in exactly that panic; no record is written for `k` or for a key greater
than `k`, and `reduceF` is not called on a key greater than `k`. -/
theorem doReduce_reduceF_failure (c : Codec)
    (reduceName : GoString → Int → Int → GoString) (fs : FS) (jobName : GoString)
    (reduceTask : Int) (outFile : GoString) (M : Nat) (reduceF : ReduceF)
    (k : GoString) (vs : List GoString) (e : PanicValue)
    (hcall : (k, vs) ∈ (doReduce c reduceName fs jobName reduceTask outFile M reduceF).calls)
    (hfail : reduceF k vs = Except.error e) :
    (doReduce c reduceName fs jobName reduceTask outFile M reduceF).failure
        = some (Failure.inReduceF e)
    ∧ (∀ kv, kv ∈ (doReduce c reduceName fs jobName reduceTask outFile M reduceF).written →
        kv.Key ≠ k ∧ strLess k kv.Key = false)
    ∧ (∀ q, q ∈ (doReduce c reduceName fs jobName reduceTask outFile M reduceF).calls →
        strLess k q.1 = false) := by
  rcases doReduce_cases fs (shardName reduceName jobName reduceTask) outFile M
    with ⟨j, hj, hf⟩ | ⟨hopen, hout⟩ | ⟨hopen, hout⟩
  · obtain ⟨i, _, _, hr⟩ := doReduce_shard_fail c reduceName fs jobName reduceTask outFile
      M reduceF j hj hf
    rw [hr] at hcall
    exact absurd hcall (List.not_mem_nil _)
  · rw [doReduce_out_fail c reduceName fs jobName reduceTask outFile M reduceF hopen hout]
      at hcall
    exact absurd hcall (List.not_mem_nil _)
  · obtain ⟨_, h2, h3, h4, _⟩ := doReduce_ok c reduceName fs jobName reduceTask outFile M
      reduceF hopen hout
    rw [h2] at hcall
    obtain ⟨i1, i2, i3⟩ := reduce_loop_failure reduceF _ _ k vs e (sorted_keys_strict _)
      hcall hfail
    rw [h2, h3, h4]
    refine ⟨i1, ?_, ?_⟩
    · intro kv hkv
      have hlt := i2 kv hkv
      refine ⟨?_, strLess_asymm _ _ hlt⟩
      intro heq
      rw [heq, strLess_irrefl] at hlt
      exact Bool.noConfusion hlt
    · intro q hq
      rcases i3 q hq with h | h
      · rw [h]
        exact strLess_irrefl k
      · exact strLess_asymm _ _ h

theorem doReduce_reduceF_failure_witness :
    ([98], [[50]]) ∈ (doReduce frameCodec exampleName exampleFS [106] 0 [111] (2 : Nat)
        failOnB).calls
    ∧ failOnB [98] [[50]] = Except.error [33]
    ∧ (doReduce frameCodec exampleName exampleFS [106] 0 [111] (2 : Nat) failOnB).failure
        = some (Failure.inReduceF [33])
    ∧ (doReduce frameCodec exampleName exampleFS [106] 0 [111] (2 : Nat) failOnB).written
        = [⟨[97], [49, 44, 51]⟩] :=
  have h : ([98], [[50]]) ∈ (doReduce frameCodec exampleName exampleFS [106] 0 [111] (2 : Nat)
      failOnB).calls := by decide
  ⟨h, rfl,
    (doReduce_reduceF_failure frameCodec exampleName exampleFS [106] 0 [111] 2 failOnB
      [98] [[50]] [33] h rfl).1,
    by decide⟩

/-! ## The grouping step -/

theorem firstSeen_append_singleton (l : List GoString) (k : GoString) :
    firstSeen (l ++ [k]) = if k ∈ l then firstSeen l else firstSeen l ++ [k] := by
  induction l with
  | nil => simp [firstSeen]
  | cons a l ih =>
    rw [List.cons_append, firstSeen, ih, firstSeen]
    by_cases hk : k ∈ l
    · simp [hk]
    · by_cases ha : k = a
      · subst ha
        simp [hk, List.filter_append]
      · simp [hk, ha, List.filter_append]

theorem grouped_append_singleton (rs : List KeyValue) (kv : KeyValue) :
    grouped (rs ++ [kv]) = (grouped rs).add kv := by
  simp [grouped, List.foldl_append]

/-- The decode loop started in the state reached on the records `rs` ends in the state
reached on `rs` followed by the records of the stream: the states of the loop are the
states `grouped` of the initial parts of the record stream. -/
theorem decodeLoop_grouped (c : Codec) (fuel : Nat) (s : List Byte) (rs : List KeyValue) :
    decodeLoop c fuel s (grouped rs) = grouped (rs ++ recordsAux c fuel s) := by
  rw [decodeLoop_eq, grouped, grouped, List.foldl_append]

theorem grouped_lookup_eq_none (rs : List KeyValue) (k : GoString) :
    (grouped rs).keyValuesMap.lookup k = none ↔ k ∉ keysOf rs := by
  rw [grouped, (group_inv rs).1 k]
  by_cases h : k ∈ keysOf rs <;> simp [h]

theorem grouped_keys_firstSeen (rs : List KeyValue) :
    (grouped rs).keys = firstSeen (keysOf rs) := by
  induction rs using List.reverseRecOn with
  | nil => rfl
  | append_singleton rs kv ih =>
    rw [grouped_append_singleton, add_keys, keysOf, List.map_append, List.map_cons,
      List.map_nil, firstSeen_append_singleton, ← keysOf, ← ih]
    by_cases h : kv.Key ∈ keysOf rs
    · have hn : ¬ (grouped rs).keyValuesMap.lookup kv.Key = none :=
        fun e => (grouped_lookup_eq_none rs kv.Key).mp e h
      rw [if_neg hn, if_pos h]
    · rw [if_pos ((grouped_lookup_eq_none rs kv.Key).mpr h), if_neg h]

theorem valuesOf_ne_nil (k : GoString) (rs : List KeyValue) (h : k ∈ keysOf rs) :
    valuesOf k rs ≠ [] := by
  intro e
  have hl := length_valuesOf k rs
  rw [e] at hl
  have hz : occurrences k (keysOf rs) = 0 := hl.symm
  simp only [occurrences, List.length_eq_zero, List.filter_eq_nil_iff] at hz
  exact hz k h (by simp)

/-- C14. The invariant of the grouping step. After any sequence `rs` of decoded records
has been processed, the list `keys` has no duplicates, lists the keys in first-seen
order and has the keys of `keyValuesMap` as its elements, and every entry of
`keyValuesMap` holds a non-empty value list. Processing one more record `(k, v)` appends
`k` to `keys` if and only if `k` was absent from `keyValuesMap`, appends `v` to the end of
the list of `k`, and leaves the list of every other key unchanged. -/
theorem grouping_step_invariant (rs : List KeyValue) (kv : KeyValue) :
    (grouped rs).keys.Nodup
    ∧ (grouped rs).keys = firstSeen (keysOf rs)
    ∧ (∀ k, k ∈ (grouped rs).keys ↔ (grouped rs).keyValuesMap.lookup k ≠ none)
    ∧ (∀ k vs, (grouped rs).keyValuesMap.lookup k = some vs → vs ≠ [])
    ∧ grouped (rs ++ [kv]) = (grouped rs).add kv
    ∧ ((grouped rs).keyValuesMap.lookup kv.Key = none →
        ((grouped rs).add kv).keys = (grouped rs).keys ++ [kv.Key])
    ∧ ((grouped rs).keyValuesMap.lookup kv.Key ≠ none →
        ((grouped rs).add kv).keys = (grouped rs).keys)
    ∧ ((grouped rs).add kv).keyValuesMap.lookup kv.Key
        = some ((grouped rs).keyValuesMap.index kv.Key ++ [kv.Value])
    ∧ (∀ k, k ≠ kv.Key →
        ((grouped rs).add kv).keyValuesMap.lookup k = (grouped rs).keyValuesMap.lookup k) := by
  refine ⟨grouped_keys_nodup rs, grouped_keys_firstSeen rs, ?_, ?_,
    grouped_append_singleton rs kv, ?_, ?_, ?_, ?_⟩
  · intro k
    rw [grouped_keys_mem, Ne, grouped_lookup_eq_none, not_not]
  · intro k vs h
    have h1 := (group_inv rs).1 k
    rw [← grouped, h] at h1
    by_cases hk : k ∈ keysOf rs
    · rw [if_pos hk] at h1
      simp only [Option.some.injEq] at h1
      rw [h1]
      exact valuesOf_ne_nil k rs hk
    · rw [if_neg hk] at h1
      exact Option.noConfusion h1
  · intro h
    rw [add_keys, if_pos h]
  · intro h
    rw [add_keys, if_neg h]
  · rw [add_lookup, if_pos rfl]
  · intro k hk
    rw [add_lookup, if_neg (fun e => hk e.symm)]

theorem grouping_step_invariant_witness :
    (grouped [⟨[97], [49]⟩, ⟨[98], [50]⟩, ⟨[97], [51]⟩]).keys
        = firstSeen (keysOf [⟨[97], [49]⟩, ⟨[98], [50]⟩, ⟨[97], [51]⟩])
    ∧ ((grouped [⟨[97], [49]⟩, ⟨[98], [50]⟩, ⟨[97], [51]⟩]).add ⟨[99], [52]⟩).keys
        = [[97], [98], [99]]
    ∧ ((grouped [⟨[97], [49]⟩, ⟨[98], [50]⟩, ⟨[97], [51]⟩]).add ⟨[97], [53]⟩).keyValuesMap.lookup
        [97] = some [[49], [51], [53]] :=
  ⟨(grouping_step_invariant [⟨[97], [49]⟩, ⟨[98], [50]⟩, ⟨[97], [51]⟩] ⟨[99], [52]⟩).2.1,
    by decide, by decide⟩

/-- C15. For every `M`, when every shard opens, the shard files that `doReduce` opens
are `reduceName(jobName, m, reduceTask)` for `m = 0, 1, ..., M - 1`, in that order and
each once: the index of the shard is the second argument of `reduceName` and the index of
this reduce task is the third. -/
theorem doReduce_opens_shards_in_order (c : Codec)
    (reduceName : GoString → Int → Int → GoString) (fs : FS) (jobName : GoString)
    (reduceTask : Int) (outFile : GoString) (M : Nat) (reduceF : ReduceF)
    (hopen : ∀ m : Nat, m < M →
      (fs.osOpen (reduceName jobName (m : Int) reduceTask)).isSome = true) :
    (doReduce c reduceName fs jobName reduceTask outFile M reduceF).opened
        = (List.range M).map (fun m : Nat => reduceName jobName (m : Int) reduceTask)
    ∧ (doReduce c reduceName fs jobName reduceTask outFile M reduceF).opened.length = M := by
  have h : (doReduce c reduceName fs jobName reduceTask outFile M reduceF).opened
      = (List.range M).map (shardName reduceName jobName reduceTask) := by
    cases hw : fs.mayWrite outFile
    · rw [doReduce_out_fail c reduceName fs jobName reduceTask outFile M reduceF hopen hw]
    · exact (doReduce_ok c reduceName fs jobName reduceTask outFile M reduceF hopen hw).1
  refine ⟨h, ?_⟩
  rw [h, List.length_map, List.length_range]

theorem doReduce_opens_shards_in_order_witness :
    (∀ m : Nat, m < 2 → (exampleFS.osOpen (exampleName [106] (m : Int) 0)).isSome = true)
    ∧ (doReduce frameCodec exampleName exampleFS [106] 0 [111] (2 : Nat)
        (returning joinComma)).opened
        = (List.range 2).map (fun m : Nat => exampleName [106] (m : Int) 0)
    ∧ (doReduce frameCodec exampleName exampleFS [106] 0 [111] (2 : Nat)
        (returning joinComma)).opened.length = 2 :=
  ⟨exampleFS_opens,
    doReduce_opens_shards_in_order frameCodec exampleName exampleFS [106] 0 [111] 2
      (returning joinComma) exampleFS_opens⟩

/-- C16. The method `Less` of `StringSlice` is a strict total order on the strings of
the slice: for all indices `i`, `j`, `k` in range, `Less(i, i)` is false, `Less(i, j)` and
`Less(j, k)` imply `Less(i, k)`, and when `slice[i]` and `slice[j]` differ exactly one of
`Less(i, j)` and `Less(j, i)` holds; and `Less(i, j)` holds exactly when `slice[i]` is
before `slice[j]` in the lexicographic order of their bytes. -/
theorem stringSlice_less_strict_total (slice : StringSlice) (i j k : Nat)
    (hi : i < StringSlice.Len slice) (hj : j < StringSlice.Len slice)
    (_hk : k < StringSlice.Len slice) :
    StringSlice.Less slice i i = false
    ∧ (StringSlice.Less slice i j = true → StringSlice.Less slice j k = true →
        StringSlice.Less slice i k = true)
    ∧ (slice.get ⟨i, hi⟩ ≠ slice.get ⟨j, hj⟩ →
        (StringSlice.Less slice i j = true ∧ StringSlice.Less slice j i = false)
        ∨ (StringSlice.Less slice i j = false ∧ StringSlice.Less slice j i = true))
    ∧ (StringSlice.Less slice i j = true
        ↔ List.Lex (fun x y : Byte => x < y) (slice.get ⟨i, hi⟩) (slice.get ⟨j, hj⟩)) := by
  have ei : slice.getD i [] = slice.get ⟨i, hi⟩ := List.getD_eq_getElem slice [] hi
  have ej : slice.getD j [] = slice.get ⟨j, hj⟩ := List.getD_eq_getElem slice [] hj
  refine ⟨strLess_irrefl _, strLess_trans _ _ _, ?_, ?_⟩
  · intro hne
    simp only [StringSlice.Less, ei, ej]
    cases h1 : strLess (slice.get ⟨i, hi⟩) (slice.get ⟨j, hj⟩)
    · cases h2 : strLess (slice.get ⟨j, hj⟩) (slice.get ⟨i, hi⟩)
      · exact absurd (strLess_connex _ _ h1 h2) hne
      · exact Or.inr ⟨rfl, rfl⟩
    · exact Or.inl ⟨rfl, strLess_asymm _ _ h1⟩
  · simp only [StringSlice.Less, ei, ej]
    exact strLess_iff_lex _ _

theorem stringSlice_less_strict_total_witness :
    (0 < StringSlice.Len [[98], [97, 98], [97]]) ∧ (1 < StringSlice.Len [[98], [97, 98], [97]])
    ∧ (2 < StringSlice.Len [[98], [97, 98], [97]])
    ∧ StringSlice.Less [[98], [97, 98], [97]] 2 2 = false
    ∧ (StringSlice.Less [[98], [97, 98], [97]] 2 1 = true →
        StringSlice.Less [[98], [97, 98], [97]] 1 0 = true →
        StringSlice.Less [[98], [97, 98], [97]] 2 0 = true)
    ∧ StringSlice.Less [[98], [97, 98], [97]] 2 1 = true
    ∧ StringSlice.Less [[98], [97, 98], [97]] 1 2 = false :=
  ⟨by decide, by decide, by decide,
    (stringSlice_less_strict_total [[98], [97, 98], [97]] 2 1 0 (by decide) (by decide)
      (by decide)).1,
    (stringSlice_less_strict_total [[98], [97, 98], [97]] 2 1 0 (by decide) (by decide)
      (by decide)).2.1,
    by decide, by decide⟩

/-- C18. `reduceF` is not called in an invocation that fails on the availability of its
input or of its output: if some shard does not open, or the output file cannot be opened,
the run ends in the panic of a failed open and the number of calls of `reduceF` is zero. -/
theorem doReduce_no_call_on_open_failure (c : Codec)
    (reduceName : GoString → Int → Int → GoString) (fs : FS) (jobName : GoString)
    (reduceTask : Int) (outFile : GoString) (M : Nat) (reduceF : ReduceF)
    (h : (∃ m, m < M ∧ fs.osOpen (shardName reduceName jobName reduceTask m) = none)
      ∨ fs.osOpenFile outFile = none) :
    (doReduce c reduceName fs jobName reduceTask outFile M reduceF).calls.length = 0
    ∧ ((∃ p, (doReduce c reduceName fs jobName reduceTask outFile M reduceF).failure
          = some (Failure.openShard p))
      ∨ (doReduce c reduceName fs jobName reduceTask outFile M reduceF).failure
          = some (Failure.openOutput outFile)) := by
  rcases doReduce_cases fs (shardName reduceName jobName reduceTask) outFile M
    with ⟨j, hj, hf⟩ | ⟨hopen, hout⟩ | ⟨hopen, hout⟩
  · obtain ⟨i, _, _, hr⟩ := doReduce_shard_fail c reduceName fs jobName reduceTask outFile
      M reduceF j hj hf
    rw [hr]
    exact ⟨rfl, Or.inl ⟨_, rfl⟩⟩
  · rw [doReduce_out_fail c reduceName fs jobName reduceTask outFile M reduceF hopen hout]
    exact ⟨rfl, Or.inr rfl⟩
  · exfalso
    rcases h with ⟨m, hm, hf⟩ | h
    · have := hopen m hm
      rw [hf] at this
      exact Bool.noConfusion this
    · simp [FS.osOpenFile, hout] at h

theorem doReduce_no_call_on_open_failure_witness :
    ((∃ m, m < 2 ∧ missingFS.osOpen (shardName exampleName [106] 0 m) = none)
      ∨ missingFS.osOpenFile [111] = none)
    ∧ (doReduce frameCodec exampleName missingFS [106] 0 [111] (2 : Nat)
        (returning joinComma)).calls.length = 0 :=
  have h : (∃ m, m < 2 ∧ missingFS.osOpen (shardName exampleName [106] 0 m) = none)
      ∨ missingFS.osOpenFile [111] = none := Or.inl ⟨1, by decide, rfl⟩
  ⟨h, (doReduce_no_call_on_open_failure frameCodec exampleName missingFS [106] 0 [111] 2
      (returning joinComma) h).1⟩

/-! ## Independence of the order of the records -/

theorem valuesOf_perm (k : GoString) (rs ts : List KeyValue) (h : rs.Perm ts) :
    (valuesOf k rs).Perm (valuesOf k ts) :=
  (h.filter _).map _

theorem sorted_keys_of_perm (rs ts : List KeyValue) (h : rs.Perm ts) :
    sortSort (grouped rs).keys = sortSort (grouped ts).keys := by
  apply sortSort_unique
  · refine (sortSort_perm _).trans ?_
    rw [List.perm_ext_iff_of_nodup (grouped_keys_nodup rs) (grouped_keys_nodup ts)]
    intro k
    rw [grouped_keys_mem, grouped_keys_mem]
    exact (h.map KeyValue.Key).mem_iff
  · exact sortSort_sorted _

/-- C17. The keys of the output do not depend on the order in which the records arrive.
Take two inputs of which all shards open and the output file opens, and whose record
streams, the shards one after the other, are permutations of each other. Then the two
runs write the same sequence of keys; and if the result of `reduceF` does not change when
its value list is permuted, they write the same sequence of records. -/
theorem doReduce_order_independent (c : Codec)
    (reduceName reduceName' : GoString → Int → Int → GoString) (fs fs' : FS)
    (jobName jobName' : GoString) (reduceTask reduceTask' : Int) (outFile outFile' : GoString)
    (M M' : Nat) (f : GoString → List GoString → GoString)
    (hopen : ∀ m, m < M →
      (fs.osOpen (shardName reduceName jobName reduceTask m)).isSome = true)
    (hopen' : ∀ m, m < M' →
      (fs'.osOpen (shardName reduceName' jobName' reduceTask' m)).isSome = true)
    (hout : (fs.osOpenFile outFile).isSome = true)
    (hout' : (fs'.osOpenFile outFile').isSome = true)
    (hperm : (inputRecords c fs (shardName reduceName jobName reduceTask) M).Perm
      (inputRecords c fs' (shardName reduceName' jobName' reduceTask') M')) :
    keysOf (doReduce c reduceName fs jobName reduceTask outFile M (returning f)).written
        = keysOf (doReduce c reduceName' fs' jobName' reduceTask' outFile' M'
            (returning f)).written
    ∧ ((∀ k vs vs', vs.Perm vs' → f k vs = f k vs') →
        (doReduce c reduceName fs jobName reduceTask outFile M (returning f)).written
          = (doReduce c reduceName' fs' jobName' reduceTask' outFile' M'
              (returning f)).written) := by
  obtain ⟨_, _, h3, _⟩ := doReduce_ok c reduceName fs jobName reduceTask outFile M
    (returning f) hopen (mayWrite_of_osOpenFile fs outFile hout)
  obtain ⟨_, _, h3', _⟩ := doReduce_ok c reduceName' fs' jobName' reduceTask' outFile' M'
    (returning f) hopen' (mayWrite_of_osOpenFile fs' outFile' hout')
  have hk := sorted_keys_of_perm _ _ hperm
  rw [h3, h3', reducedRecords_returning, reducedRecords_returning, hk]
  constructor
  · simp [keysOf, List.map_map, Function.comp_def]
  · intro hf
    apply List.map_congr_left
    intro k _
    rw [grouped_index, grouped_index]
    rw [hf k _ _ (valuesOf_perm k _ _ hperm)]

theorem swappedFS_opens : ∀ m, m < 2 →
    (swappedFS.osOpen (shardName exampleName [106] 0 m)).isSome = true := by
  intro m hm
  have h : m = 0 ∨ m = 1 := by omega
  rcases h with h | h <;> subst h <;> rfl

theorem doReduce_order_independent_witness :
    (inputRecords frameCodec exampleFS (shardName exampleName [106] 0) 2).Perm
      (inputRecords frameCodec swappedFS (shardName exampleName [106] 0) 2)
    ∧ keysOf (doReduce frameCodec exampleName exampleFS [106] 0 [111] (2 : Nat)
        (returning countValues)).written
      = keysOf (doReduce frameCodec exampleName swappedFS [106] 0 [111] (2 : Nat)
        (returning countValues)).written
    ∧ (doReduce frameCodec exampleName exampleFS [106] 0 [111] (2 : Nat)
        (returning countValues)).written
      = (doReduce frameCodec exampleName swappedFS [106] 0 [111] (2 : Nat)
        (returning countValues)).written :=
  have hp : (inputRecords frameCodec exampleFS (shardName exampleName [106] 0) 2).Perm
      (inputRecords frameCodec swappedFS (shardName exampleName [106] 0) 2) := by decide
  ⟨hp,
    (doReduce_order_independent frameCodec exampleName exampleName exampleFS swappedFS
      [106] [106] 0 0 [111] [111] 2 2 countValues exampleFS_opens swappedFS_opens rfl rfl hp).1,
    (doReduce_order_independent frameCodec exampleName exampleName exampleFS swappedFS
      [106] [106] 0 0 [111] [111] 2 2 countValues exampleFS_opens swappedFS_opens rfl rfl hp).2
      (fun _ vs vs' h => by simp [countValues, h.length_eq])⟩

/-- The two runs of the witness of C17 with the reduce function that joins with commas,
which depends on the order of the values: the keys written agree, the values do not. -/
theorem scenario_swapped :
    (doReduce frameCodec exampleName swappedFS [106] 0 [111] 2 (returning joinComma)).written
      = [⟨[97], [51, 44, 49]⟩, ⟨[98], [50]⟩, ⟨[99], [52]⟩] := by
  decide

/-! ## Counting the records -/

theorem sum_assignEntries (k : GoString) (v : List GoString)
    (es : List (GoString × List GoString)) :
    ((assignEntries k v es).map (fun e => e.2.length)).sum
        + ((lookupEntries k es).getD []).length
      = (es.map (fun e => e.2.length)).sum + v.length := by
  induction es with
  | nil => simp [assignEntries, lookupEntries]
  | cons e es ih =>
    obtain ⟨k2, v2⟩ := e
    by_cases h : k2 = k
    · subst h
      simp only [assignEntries, lookupEntries, if_true, List.map_cons, List.sum_cons,
        Option.getD_some]
      omega
    · simp only [assignEntries, lookupEntries, if_neg h, List.map_cons, List.sum_cons]
      omega

theorem totalValues_assign (m : GoMap) (k : GoString) (v : List GoString) :
    totalValues (m.assign k v) + (m.index k).length = totalValues m + v.length :=
  sum_assignEntries k v m.entries

theorem totalValues_add (g : Grouping) (kv : KeyValue) :
    totalValues (g.add kv).keyValuesMap = totalValues g.keyValuesMap + 1 := by
  unfold Grouping.add
  cases h : g.keyValuesMap.lookup kv.Key with
  | none =>
    have h1 := totalValues_assign g.keyValuesMap kv.Key []
    have h2 := totalValues_assign (g.keyValuesMap.assign kv.Key []) kv.Key
      ((g.keyValuesMap.assign kv.Key []).index kv.Key ++ [kv.Value])
    have e1 : g.keyValuesMap.index kv.Key = [] := by simp [GoMap.index, h]
    have e2 : (g.keyValuesMap.assign kv.Key []).index kv.Key = [] := by
      simp [GoMap.index, lookup_assign]
    rw [e1] at h1
    rw [e2] at h2
    simp only [List.length_nil, List.nil_append, List.length_singleton, Nat.add_zero] at h1 h2
    simp only [e2, List.nil_append]
    omega
  | some vs =>
    have h1 := totalValues_assign g.keyValuesMap kv.Key
      (g.keyValuesMap.index kv.Key ++ [kv.Value])
    simp only [List.length_append, List.length_singleton] at h1
    simp only []
    omega

theorem totalValues_grouped (rs : List KeyValue) :
    totalValues (grouped rs).keyValuesMap = rs.length := by
  induction rs using List.reverseRecOn with
  | nil => rfl
  | append_singleton rs kv ih =>
    rw [grouped_append_singleton, totalValues_add, ih]
    simp

theorem sum_indicator (a : GoString) (ks : List GoString) (hnd : ks.Nodup) (ha : a ∈ ks) :
    (ks.map (fun k => if a = k then 1 else 0)).sum = 1 := by
  induction ks with
  | nil => exact absurd ha (List.not_mem_nil _)
  | cons b ks ih =>
    obtain ⟨hb, hks⟩ := List.nodup_cons.mp hnd
    rw [List.map_cons, List.sum_cons]
    by_cases e : a = b
    · subst e
      have hz : (ks.map (fun k => if a = k then 1 else 0)).sum = 0 := by
        apply List.sum_eq_zero
        intro x hx
        obtain ⟨k, hk, rfl⟩ := List.mem_map.mp hx
        have : a ≠ k := fun e => hb (e ▸ hk)
        simp [this]
      simp [hz]
    · have hm : a ∈ ks := by
        rcases List.mem_cons.mp ha with h | h
        · exact absurd h e
        · exact h
      simp [e, ih hks hm]

theorem sum_occurrences (ks : List GoString) (hnd : ks.Nodup) (l : List GoString)
    (hsub : ∀ k, k ∈ l → k ∈ ks) :
    (ks.map (fun k => occurrences k l)).sum = l.length := by
  induction l with
  | nil => simp [occurrences]
  | cons a l ih =>
    have hstep : ∀ k, occurrences k (a :: l) = occurrences k l + (if a = k then 1 else 0) := by
      intro k
      by_cases e : a = k <;> simp [occurrences, List.filter_cons, e]
    simp only [hstep]
    rw [List.sum_map_add, ih (fun k hk => hsub k (List.mem_cons_of_mem _ hk)),
      sum_indicator a ks hnd (hsub a (List.mem_cons_self _ _))]
    simp

/-- C19. Grouping neither loses nor duplicates a record. When all the shards have been
read, the sum over the keys of `keyValuesMap` of the lengths of their value lists is the
number of records decoded from the `M` shards; and in a run that ends without panic the
sum of the lengths of the value lists passed to `reduceF` is the same number. -/
theorem grouping_preserves_record_count (c : Codec)
    (reduceName : GoString → Int → Int → GoString) (fs : FS) (jobName : GoString)
    (reduceTask : Int) (outFile : GoString) (M : Nat) (reduceF : ReduceF)
    (hopen : ∀ m, m < M →
      (fs.osOpen (shardName reduceName jobName reduceTask m)).isSome = true) :
    totalValues (shardLoop c fs (shardName reduceName jobName reduceTask) M 0
        Grouping.init []).locals.keyValuesMap
      = (inputRecords c fs (shardName reduceName jobName reduceTask) M).length
    ∧ ((doReduce c reduceName fs jobName reduceTask outFile M reduceF).failure = none →
      ((doReduce c reduceName fs jobName reduceTask outFile M reduceF).calls.map
          (fun q => q.2.length)).sum
        = (inputRecords c fs (shardName reduceName jobName reduceTask) M).length) := by
  constructor
  · rw [shardLoop_ok c fs (shardName reduceName jobName reduceTask) M 0 Grouping.init []
      (fun j _ h2 => hopen j (by omega)), ← range_eq_range_zero]
    exact totalValues_grouped _
  · intro hsucc
    cases hw : fs.mayWrite outFile
    · rw [doReduce_out_fail c reduceName fs jobName reduceTask outFile M reduceF hopen hw]
        at hsucc
      exact Option.noConfusion hsucc
    · obtain ⟨_, h2, _, h4, _⟩ := doReduce_ok c reduceName fs jobName reduceTask outFile M
        reduceF hopen hw
      rw [h4] at hsucc
      rw [h2, reduceCalls_of_no_failure _ _ _ hsucc, List.map_map]
      have hfun : ((fun q : GoString × List GoString => q.2.length) ∘ fun k =>
          (k, (grouped (inputRecords c fs (shardName reduceName jobName reduceTask)
            M)).keyValuesMap.index k))
          = fun k => occurrences k
              (keysOf (inputRecords c fs (shardName reduceName jobName reduceTask) M)) := by
        funext k
        simp only [Function.comp_apply]
        rw [grouped_index, length_valuesOf]
      rw [hfun, sum_occurrences _ ((sortSort_perm _).nodup_iff.mpr (grouped_keys_nodup _)) _
        (fun k hk => (sorted_keys_mem _ k).mpr hk)]
      simp [keysOf]

theorem grouping_preserves_record_count_witness :
    (∀ m, m < 2 → (exampleFS.osOpen (shardName exampleName [106] 0 m)).isSome = true)
    ∧ totalValues (shardLoop frameCodec exampleFS (shardName exampleName [106] 0) 2 0
        Grouping.init []).locals.keyValuesMap = 4
    ∧ ((doReduce frameCodec exampleName exampleFS [106] 0 [111] (2 : Nat)
        (returning joinComma)).calls.map (fun q => q.2.length)).sum = 4 :=
  have h4 : (inputRecords frameCodec exampleFS (shardName exampleName [106] 0) 2).length = 4 := by
    decide
  ⟨exampleFS_opens,
    h4 ▸ (grouping_preserves_record_count frameCodec exampleName exampleFS [106] 0 [111] 2
      (returning joinComma) exampleFS_opens).1,
    h4 ▸ (grouping_preserves_record_count frameCodec exampleName exampleFS [106] 0 [111] 2
      (returning joinComma) exampleFS_opens).2 (by decide)⟩

theorem staleFS_reads : ∀ m, m < 2 →
    ∃ s, staleFS.osOpen (shardName exampleName [106] 0 m) = some s
      ∧ frameCodec.Reads s (exampleRecs m) [] := by
  intro m hm
  have h : m = 0 ∨ m = 1 := by omega
  rcases h with h | h
  · subst h
    exact ⟨[1, 1, 97, 49, 1, 1, 98, 50], rfl, _, rfl, _, rfl, rfl, rfl⟩
  · subst h
    exact ⟨[1, 1, 97, 51, 1, 1, 99, 52], rfl, _, rfl, _, rfl, rfl, rfl⟩

/-- C3, evaluated on a valid input whose output path already holds a longer file. Both
shards open and decode completely, to the records (a, 1), (b, 2) and (a, 3), (c, 4), the
output file opens and the run ends without panic. The output file afterwards decodes to
records with the keys a, b, c and z, whereas the key z occurs in no record of the shards:
the file is not truncated, so the set of keys in the output artifact is not the set of
keys of the input. -/
theorem doReduce_output_holds_stale_key :
    (∀ m, m < 2 →
      ∃ s, staleFS.osOpen (shardName exampleName [106] 0 m) = some s
        ∧ frameCodec.Reads s (exampleRecs m) [])
    ∧ (staleFS.osOpenFile [111]).isSome = true
    ∧ (doReduce frameCodec exampleName staleFS [106] 0 [111] 2 (returning joinComma)).failure
        = none
    ∧ ((doReduce frameCodec exampleName staleFS [106] 0 [111] 2
          (returning joinComma)).fs.files [111]).map (fun s => keysOf (frameCodec.records s))
        = some [[97], [98], [99], [122]]
    ∧ keysOf ((List.range 2).flatMap exampleRecs) = [[97], [98], [97], [99]]
    ∧ [122] ∉ keysOf ((List.range 2).flatMap exampleRecs) :=
  ⟨staleFS_reads, rfl, by decide, by decide, by decide, by decide⟩

end MapReduce
